import Mathlib

/-!
Verification of the streaming transcript accumulator
(`src/asr/transcript_accumulator.py`).

The Python module is shallowly embedded below:

* Python `str` is modelled as `List Char` (`Str`);
* Python `float` seconds from the injected monotonic clock are modelled
  as `ℚ`; `int(x)` (truncation toward zero) is `pyInt`;
* millisecond timestamps (`now_ms`, `expiry_ms`, ...) are `ℤ`;
* each public operation receives the clock reading `tnow : ℚ` that
  `self.time_fn()` returns for the duration of that call (the source may
  call `time_fn` several times inside one operation; all such calls are
  modelled as yielding the same reading), plus the optional explicit
  `now_ms` override that the Python methods accept;
* the mutable `TranscriptAccumulator` object is the state record
  `AccState`, and every method becomes a pure function on it.

Regex note: `_TOKENIZER = [A-Za-z0-9]+(?:'[A-Za-z0-9]+)?|[^\sA-Za-z0-9]`.
`re.findall` scans left to right; at an alphanumeric character the first
alternative matches greedily (a run of alphanumerics, optionally followed
by a single apostrophe and another nonempty run), at any other
non-whitespace character the second alternative matches exactly that one
character, and whitespace characters start no match and are skipped.
`tokenizeAux` below implements exactly that scan (with a fuel argument,
`fuel ≥ length` always holds on the call path from `tokenize`).
-/

namespace TA

/-- Python `str` is modelled as a list of characters. -/
abbrev Str := List Char

/-- The apostrophe character (written via its code point to keep the
source free of quote-escaping). -/
def apos : Char := Char.ofNat 39

/-- Python's `\s` for the ASCII range: space, tab, newline, carriage
return, vertical tab, form feed. -/
def isSpace (c : Char) : Bool :=
  decide (c ∈ ([' ', '\t', '\n', '\r', Char.ofNat 11, Char.ofNat 12] : List Char))

/-- The character class `[A-Za-z0-9]` of the tokenizer regex. -/
def isAlnum (c : Char) : Bool := c.isAlpha || c.isDigit

/-- Python's `\w` (word character) as used by `detokenize`'s
`re.match(r"^[^\w\s]$", tok)`: alphanumeric or underscore. -/
def isWordChar (c : Char) : Bool := isAlnum c || c = '_'

/-- One left-to-right scan step of `_TOKENIZER.findall` (source
`tokenize`, lines 51-53).  `fuel` only forces termination; it never runs
out when `fuel ≥ length` of the input. -/
def tokenizeAux : ℕ → Str → List Str
  | 0, _ => []
  | _ + 1, [] => []
  | fuel + 1, c :: rest =>
    if isSpace c then tokenizeAux fuel rest
    else if isAlnum c then
      let run := c :: rest.takeWhile isAlnum
      let rest1 := rest.dropWhile isAlnum
      match rest1 with
      | q :: d :: rest2 =>
        if q = apos ∧ isAlnum d then
          (run ++ apos :: d :: rest2.takeWhile isAlnum) ::
            tokenizeAux fuel (rest2.dropWhile isAlnum)
        else run :: tokenizeAux fuel rest1
      | _ => run :: tokenizeAux fuel rest1
    else [c] :: tokenizeAux fuel rest

/-- Source `tokenize` (lines 51-53): split text into word and punctuation
tokens. -/
def tokenize (text : Str) : List Str := tokenizeAux text.length text

/-- Does `detokenize` glue this token onto the previous one without a
space?  Source line 61: `re.match(r"^[^\w\s]$", tok)` - a single
character that is neither a word character nor whitespace. -/
def isPunct1 : Str → Bool
  | [c] => !isWordChar c && !isSpace c
  | _ => false

/-- Tail of `detokenize`: every token after the first is appended either
directly (single punctuation) or preceded by one space. -/
def detokAux : List Str → Str
  | [] => []
  | t :: ts => (if isPunct1 t then t else ' ' :: t) ++ detokAux ts

/-- Source `detokenize` (lines 55-65): reconstruct text with smart
spacing (first token as is, punctuation glued, words space-separated). -/
def detokenize : List Str → Str
  | [] => []
  | t :: ts => t ++ detokAux ts

/-- Source `lcp_len` (lines 67-72): longest common prefix length. -/
def lcp_len : List Str → List Str → ℕ
  | a :: as, b :: bs => if a = b then lcp_len as bs + 1 else 0
  | _, _ => 0

/-- Python `int()` on a rational: truncation toward zero.  Implemented
on the numerator/denominator so that the kernel can evaluate it;
`pyInt_eq` below relates it to floor and ceiling. -/
def pyInt (q : ℚ) : ℤ := q.num.tdiv q.den

/-- Python `str.lower()` per token (ASCII case folding, which is what the
accumulator's inputs use). -/
def lower (t : Str) : Str := t.map Char.toLower

/-- Python `l[-n:]` for `n ≥ 1`: the last `n` elements (the whole list
when `n ≥ length`).  Every use in the source has `n ≥ 1`. -/
def lastN (n : ℕ) (l : List α) : List α := l.drop (l.length - n)

/-- Source `Token` dataclass (lines 25-31): a word with stability
metadata.  Times are clock readings in seconds. -/
structure Token where
  text : Str
  confirmation_count : ℕ
  first_seen_time : ℚ
  last_seen_time : ℚ
deriving DecidableEq

/-- Source `Snapshot` dataclass (lines 34-40): pending tokens shelved at
a segment break, awaiting a late final. -/
structure Snapshot where
  tokens : List Token
  started_ms : ℤ
  expiry_ms : ℤ
  segment_id : ℕ
deriving DecidableEq

/-- Source `TimedText` dataclass (lines 42-46): timestamped partial text
for the history ring buffer. -/
structure TimedText where
  ts_ms : ℤ
  tokens : List Str
deriving DecidableEq

/-- Constructor configuration of `TranscriptAccumulator.__init__`
(lines 94-114), with durations already converted to milliseconds the way
`__init__` stores them. -/
structure Config where
  K : ℕ
  T_ms : ℤ
  max_segment_ms : ℤ
  awaiting_final_ttl_ms : ℤ
  partial_history_window_ms : ℤ
  dedup_enabled : Bool
  dedup_window_size : ℕ
deriving DecidableEq

/-- The default constructor arguments (`K=2`, `T=1400ms`,
`max_segment=12s`, `TTL=5000ms`, `history=30s`, dedup on, window 30). -/
def defaultConfig : Config :=
  ⟨2, 1400, 12000, 5000, 30000, true, 30⟩

/-- The observability counters of `self._metrics` (lines 127-141). -/
structure Metrics where
  late_final_hits : ℕ
  snapshot_expired_commits : ℕ
  orphan_rescues : ℕ
  segment_rolls : ℕ
  words_lost_pre_fix : ℕ
  total_partials : ℕ
  total_finals : ℕ
  tokens_committed_by_stability : ℕ
  tokens_committed_by_final : ℕ
  tokens_committed_by_flush : ℕ
  dedup_full_blocks : ℕ
  dedup_partial_overlaps : ℕ
  dedup_tokens_removed : ℕ
deriving DecidableEq

/-- All counters start at zero. -/
def initMetrics : Metrics := ⟨0, 0, 0, 0, 0, 0, 0, 0, 0, 0, 0, 0, 0⟩

/-- The mutable state of one `TranscriptAccumulator` (lines 116-141). -/
structure AccState where
  stable : List Str
  pending_tokens : List Token
  awaiting_final : List Snapshot
  partial_history : List TimedText
  segment_id : ℕ
  segment_started_ms : Option ℤ
  metrics : Metrics
deriving DecidableEq

/-- The freshly constructed accumulator. -/
def initState : AccState := ⟨[], [], [], [], 0, none, initMetrics⟩

/-- Source `_now_ms` (lines 156-158): `int(self.time_fn() * 1000)`. -/
def msOfSec (tnow : ℚ) : ℤ := pyInt (tnow * 1000)

/-- Source `_ensure_segment_started` (lines 160-163), called by the
public operations with the already-resolved `now`. -/
def ensureSegmentStarted (s : AccState) (now : ℤ) : AccState :=
  match s.segment_started_ms with
  | none => { s with segment_started_ms := some now }
  | some _ => s

/-- Python `recent[i:i+len(new)] == new` for one start offset `i`. -/
def sliceEqAt (recentL newL : List Str) (i : ℕ) : Bool :=
  decide ((recentL.drop i).take newL.length = newL)

/-- The full-duplicate scan of `_deduplicate_before_commit`
(lines 294-300): does any contiguous slice of `recentL` equal `newL`?
The Python loop tries `i ∈ range(len(recent) - len(new) + 1)`. -/
def hasFullDup (recentL newL : List Str) : Bool :=
  (List.range (recentL.length - newL.length + 1)).any (sliceEqAt recentL newL)

/-- The boundary-overlap scan of `_deduplicate_before_commit`
(lines 304-307): the largest `k ≤ bound` with
`recent[-k:] == new[:k]`, else 0.  The source walks `k` upward and
remembers the last match; scanning downward and returning the first
match computes the same maximum. -/
def overlapScan (recentL newL : List Str) : ℕ → ℕ
  | 0 => 0
  | k + 1 =>
    if lastN (k + 1) recentL = newL.take (k + 1) then k + 1
    else overlapScan recentL newL k

/-- Source `_deduplicate_before_commit` (lines 270-315).  It reads
`self._stable` and `self._metrics` and returns the filtered token list
plus the updated metrics; it never writes `self._stable`. -/
def dedup (cfg : Config) (stable : List Str) (m : Metrics)
    (new_tokens : List Str) : List Str × Metrics :=
  if cfg.dedup_enabled = false ∨ new_tokens = [] ∨ stable = [] then
    (new_tokens, m)
  else
    let window_size := max cfg.dedup_window_size (new_tokens.length * 3)
    let recent_stable := lastN window_size stable
    let newL := new_tokens.map lower
    let recentL := recent_stable.map lower
    if newL.length ≤ recentL.length ∧ hasFullDup recentL newL then
      ([], { m with
              dedup_full_blocks := m.dedup_full_blocks + 1,
              dedup_tokens_removed :=
                m.dedup_tokens_removed + new_tokens.length })
    else
      let best_overlap := overlapScan recentL newL (min newL.length recentL.length)
      if 0 < best_overlap then
        (new_tokens.drop best_overlap,
         { m with
            dedup_partial_overlaps := m.dedup_partial_overlaps + 1,
            dedup_tokens_removed := m.dedup_tokens_removed + best_overlap })
      else (new_tokens, m)

/-- Result of the collection loop inside `_promote_leftmost_ready`
(lines 202-217): the texts popped for commit, how many were popped for
each reason, and the pending tokens left behind. -/
structure ReadyBatch where
  batch : List Str
  nStability : ℕ
  nFlush : ℕ
  remaining : List Token
deriving DecidableEq

/-- The front-of-deque walk of `_promote_leftmost_ready`: pop while the
front token has `confirmation_count ≥ K`, or age
`int((time_fn() - first_seen_time) * 1000) ≥ T_ms`; stop at the first
token meeting neither threshold. -/
def collectReady (cfg : Config) (tnow : ℚ) : List Token → ReadyBatch
  | [] => ⟨[], 0, 0, []⟩
  | tok :: rest =>
    if cfg.K ≤ tok.confirmation_count then
      let r := collectReady cfg tnow rest
      ⟨tok.text :: r.batch, r.nStability + 1, r.nFlush, r.remaining⟩
    else if cfg.T_ms ≤ pyInt ((tnow - tok.first_seen_time) * 1000) then
      let r := collectReady cfg tnow rest
      ⟨tok.text :: r.batch, r.nStability, r.nFlush + 1, r.remaining⟩
    else ⟨[], 0, 0, tok :: rest⟩

/-- Source `_promote_leftmost_ready` (lines 196-235): pop the ready
prefix of `pending`, update the per-reason counters, pass the batch
through the deduplicator and append the survivors to `stable`.  Returns
the new state and the number of tokens appended (`promoted`). -/
def promoteLeftmostReady (cfg : Config) (tnow : ℚ) (s : AccState) :
    AccState × ℕ :=
  let r := collectReady cfg tnow s.pending_tokens
  let m1 := { s.metrics with
    tokens_committed_by_stability :=
      s.metrics.tokens_committed_by_stability + r.nStability,
    tokens_committed_by_flush :=
      s.metrics.tokens_committed_by_flush + r.nFlush }
  if r.batch = [] then
    ({ s with pending_tokens := r.remaining, metrics := m1 }, 0)
  else
    let dd := dedup cfg s.stable m1 r.batch
    ({ s with
        pending_tokens := r.remaining,
        stable := s.stable ++ dd.1,
        metrics := dd.2 },
     dd.1.length)

/-- Source `_snapshot_pending` (lines 238-251): when `pending` is
non-empty, shelve a copy of it with TTL `awaiting_final_ttl_ms`. -/
def snapshotPending (cfg : Config) (s : AccState) (now : ℤ) : AccState :=
  if s.pending_tokens = [] then s
  else
    { s with awaiting_final := s.awaiting_final ++
        [⟨s.pending_tokens, now, now + cfg.awaiting_final_ttl_ms,
          s.segment_id⟩] }

/-- The `while` loop of `_expire_snapshots` (lines 253-267), threading
the snapshot queue, `stable` and the metrics: pop front snapshots whose
`expiry_ms ≤ now`, deduplicate their token texts, append the survivors
to `stable` and count them in `snapshot_expired_commits`. -/
def expireAux (cfg : Config) (now : ℤ) :
    List Snapshot → List Str → Metrics → List Snapshot × List Str × Metrics
  | [], stable, m => ([], stable, m)
  | snap :: rest, stable, m =>
    if snap.expiry_ms ≤ now then
      let dd := dedup cfg stable m (snap.tokens.map Token.text)
      expireAux cfg now rest (stable ++ dd.1)
        { dd.2 with snapshot_expired_commits :=
            dd.2.snapshot_expired_commits + dd.1.length }
    else (snap :: rest, stable, m)

/-- Source `_expire_snapshots` applied to the accumulator state. -/
def expireSnapshots (cfg : Config) (s : AccState) (now : ℤ) : AccState :=
  let r := expireAux cfg now s.awaiting_final s.stable s.metrics
  { s with awaiting_final := r.1, stable := r.2.1, metrics := r.2.2 }

/-- Source `_record_partial_history` (lines 188-193): append the current
tokens and drop front entries older than the history window. -/
def recordPartialHistory (cfg : Config) (s : AccState) (tokens : List Str)
    (now : ℤ) : AccState :=
  let ph := s.partial_history ++ [⟨now, tokens⟩]
  { s with partial_history :=
      ph.dropWhile (fun tt => tt.ts_ms < now - cfg.partial_history_window_ms) }

/-- The display event record of `build_display_event` (lines 171-185),
with the `metadata` sub-record flattened into the last three fields. -/
structure DisplayEvent where
  etype : Str
  stable_text : Str
  partial_suffix : Str
  is_final : Bool
  segment_id : ℕ
  pending_count : ℕ
  awaiting_snapshots : ℕ
  stable_word_count : ℕ
deriving DecidableEq

/-- Source `build_display_event` (lines 171-185). -/
def build_display_event (s : AccState) (isFinal : Bool) : DisplayEvent :=
  ⟨"display".data,
   detokenize s.stable,
   detokenize (s.pending_tokens.map Token.text),
   isFinal,
   s.segment_id,
   s.pending_tokens.length,
   s.awaiting_final.length,
   s.stable.length⟩

/-- Source `force_segment_break` (lines 526-543) with the `now` already
resolved: snapshot pending (without expiring old snapshots!), clear
pending, bump `segment_id`, restart the segment clock, count the roll. -/
def force_segment_break (cfg : Config) (s : AccState) (now : ℤ) : AccState :=
  let s1 := snapshotPending cfg s now
  { s1 with
      pending_tokens := [],
      segment_id := s1.segment_id + 1,
      segment_started_ms := some now,
      metrics := { s1.metrics with
        segment_rolls := s1.metrics.segment_rolls + 1 } }

/-- The pending-deque update of `add_partial` (lines 391-417): confirm
the longest common prefix (bump `confirmation_count`, refresh
`last_seen_time`), drop the revised tail, append the new suffix as fresh
tokens with count 1 and both timestamps set to the current reading. -/
def alignPending (s : AccState) (cur_tokens : List Str) (tnow : ℚ) :
    AccState :=
  let prev_txt := s.pending_tokens.map Token.text
  let l := lcp_len prev_txt cur_tokens
  { s with pending_tokens :=
      ((s.pending_tokens.take l).map fun t =>
        { t with confirmation_count := t.confirmation_count + 1,
                 last_seen_time := tnow }) ++
      ((cur_tokens.drop l).map fun w => Token.mk w 1 tnow tnow) }

/-- The segment-timeout check at the end of `add_partial`
(lines 425-427): force a break when the segment has run for
`max_segment_ms` or longer. -/
def maybeSegmentTimeout (cfg : Config) (s : AccState) (now : ℤ) :
    AccState :=
  match s.segment_started_ms with
  | none => s
  | some st =>
    if cfg.max_segment_ms ≤ now - st then force_segment_break cfg s now
    else s

/-- Source `add_partial` (lines 369-429).  `tnow` is the clock reading
(seconds); `now_ms` is the optional explicit timestamp argument.  The
returned pair is (new state, display event). -/
def add_partial_op (cfg : Config) (s : AccState) (text : Str) (tnow : ℚ)
    (now_ms : Option ℤ) : AccState × DisplayEvent :=
  let s0 := { s with metrics :=
    { s.metrics with total_partials := s.metrics.total_partials + 1 } }
  let now := now_ms.getD (msOfSec tnow)
  let s1 := ensureSegmentStarted s0 now
  let s2 := expireSnapshots cfg s1 now
  let cur_tokens := tokenize text
  let s3 := recordPartialHistory cfg s2 cur_tokens now
  let s4 := alignPending s3 cur_tokens tnow
  let s5 := (promoteLeftmostReady cfg tnow s4).1
  let s6 := maybeSegmentTimeout cfg s5 now
  (s6, build_display_event s6 false)

/-- The candidate-selection record of `_build_context_for_final`
(line 348): context, chosen snapshot index, the three length components
and the running best overlap. -/
structure BestCtx where
  ctx : List Str
  snap_idx : Option ℕ
  len_st : ℕ
  len_snap : ℕ
  len_pend : ℕ
  overlap : ℕ
deriving DecidableEq

/-- Descending scan of `_longest_suffix_prefix` (lines 318-330) over
already-lowercased lists: the largest `cand ≤ bound` whose context
suffix equals the final prefix, else 0. -/
def lspScan (ctxL finL : List Str) : ℕ → ℕ
  | 0 => 0
  | k + 1 =>
    if lastN (k + 1) ctxL = finL.take (k + 1) then k + 1
    else lspScan ctxL finL k

/-- Source `_longest_suffix_prefix` (lines 318-330): the longest
case-insensitive suffix-prefix overlap between `context` and
`final_tokens` (the source lowercases the compared slices inside the
loop, which equals lowercasing both lists once). -/
def longestSuffixOverlap (context final_tokens : List Str) : ℕ :=
  lspScan (context.map lower) (final_tokens.map lower)
    (min context.length final_tokens.length)

/-- One iteration of the snapshot loop in `_build_context_for_final`
(lines 351-358): replace the running best only on a strictly greater
overlap.  The pair `p` carries the snapshot's true index in
`awaiting_final` (the source computes it as `len － 1 － rev_idx`). -/
def bestStep (finT st_tail pend : List Str) (b : BestCtx) (p : ℕ × Snapshot) :
    BestCtx :=
  let snapT := p.2.tokens.map Token.text
  let ctx := st_tail ++ snapT ++ pend
  let m := longestSuffixOverlap ctx finT
  if b.overlap < m then
    ⟨ctx, some p.1, st_tail.length, snapT.length, pend.length, m⟩
  else b

/-- The overlap a snapshot-candidate pair achieves in the loop of
`_build_context_for_final` (used to specify the loop's result). -/
def bestMval (finT st_tail pend : List Str) (p : ℕ × Snapshot) : ℕ :=
  longestSuffixOverlap (st_tail ++ p.2.tokens.map Token.text ++ pend) finT

/-- The `BestCtx` record the loop stores for a winning pair. -/
def bestMk (finT st_tail pend : List Str) (p : ℕ × Snapshot) : BestCtx :=
  ⟨st_tail ++ p.2.tokens.map Token.text ++ pend, some p.1, st_tail.length,
    (p.2.tokens.map Token.text).length, pend.length,
    bestMval finT st_tail pend p⟩

/-- Source `_build_context_for_final` (lines 332-366): try every
snapshot newest-first, then the no-snapshot context, keeping the first
strict improvement over the initial empty candidate. -/
def build_context_for_final (s : AccState) (final_tokens : List Str) :
    BestCtx :=
  let st_tail := lastN 64 s.stable
  let pend := s.pending_tokens.map Token.text
  let b := (s.awaiting_final.enum.reverse).foldl
    (bestStep final_tokens st_tail pend) ⟨[], none, 0, 0, 0, 0⟩
  let ctx0 := st_tail ++ pend
  let m0 := longestSuffixOverlap ctx0 final_tokens
  if b.overlap < m0 then ⟨ctx0, none, st_tail.length, 0, pend.length, m0⟩
  else b

/-- A placeholder snapshot used to model Python's indexing
`self.awaiting_final[snap_idx]`; the index returned by
`build_context_for_final` is always in range, so the default is never
read on the real execution path. -/
def dummySnap : Snapshot := ⟨[], 0, 0, 0⟩

/-- Lines 494-496 of `add_final`: if the chosen snapshot's token list
became empty, remove it from the queue.  Python's
`self.awaiting_final.remove(self.awaiting_final[snap_idx])` removes the
first element equal to the indexed one, which `List.erase` models. -/
def dropEmptyChosen (idx : ℕ) (s : AccState) : AccState :=
  let chosen := s.awaiting_final.getD idx dummySnap
  if chosen.tokens = [] then
    { s with awaiting_final := s.awaiting_final.erase chosen }
  else s

/-- Lines 498-503 of `add_final`: bump the rescue metrics when any
orphans were committed. -/
def addRescueMetrics (rescued : ℕ) (s : AccState) : AccState :=
  if 0 < rescued then
    { s with metrics := { s.metrics with
        orphan_rescues := s.metrics.orphan_rescues + rescued,
        late_final_hits := s.metrics.late_final_hits + 1,
        tokens_committed_by_final :=
          s.metrics.tokens_committed_by_final + rescued } }
  else s

/-- The orphan-rescue block of `add_final` (lines 463-503): when the
chosen context used a snapshot, commit (after deduplication) the
snapshot tokens strictly left of the overlap region, trim them off the
snapshot, drop the snapshot if it became empty, and update the rescue
metrics.  Returns (new state, number of rescued tokens). -/
def rescueOrphans (cfg : Config) (s2 : AccState) (b : BestCtx) (m : ℕ) :
    AccState × ℕ :=
  let overlap_start : ℤ := (b.ctx.length : ℤ) - (m : ℤ)
  match b.snap_idx with
  | none => (s2, 0)
  | some idx =>
    if 0 < b.len_snap then
      let snap_start : ℤ := (b.len_st : ℤ)
      let snap_end : ℤ := (b.len_st : ℤ) + (b.len_snap : ℤ) - 1
      let left_end : ℤ := min snap_end (overlap_start - 1)
      let sA :=
        if snap_start ≤ left_end then
          let left_count := (left_end - snap_start + 1).toNat
          let snap := s2.awaiting_final.getD idx dummySnap
          let orphaned := (snap.tokens.take left_count).map Token.text
          let dd := dedup cfg s2.stable s2.metrics orphaned
          ({ s2 with
              stable := s2.stable ++ dd.1,
              metrics := dd.2,
              awaiting_final := s2.awaiting_final.set idx
                { snap with tokens := snap.tokens.drop left_count } },
           dd.1.length)
        else (s2, 0)
      (addRescueMetrics sA.2 (dropEmptyChosen idx sA.1), sA.2)
    else (s2, 0)

/-- The suffix-append block of `add_final` (lines 505-513): commit the
deduplicated unmatched suffix of the final. -/
def appendFinalSuffix (cfg : Config) (s3 : AccState) (to_append : List Str) :
    AccState :=
  if to_append = [] then s3
  else
    let dd := dedup cfg s3.stable s3.metrics to_append
    { s3 with
        stable := s3.stable ++ dd.1,
        metrics := { dd.2 with tokens_committed_by_final :=
          dd.2.tokens_committed_by_final + dd.1.length } }

/-- Source `add_final` (lines 431-524): reconcile a final against the
best context, rescue orphaned snapshot tokens left of the overlap,
append the unmatched suffix, clear pending and roll the segment. -/
def add_final (cfg : Config) (s : AccState) (text : Str) (tnow : ℚ)
    (now_ms : Option ℤ) : AccState × DisplayEvent :=
  let s0 := { s with metrics :=
    { s.metrics with total_finals := s.metrics.total_finals + 1 } }
  let now := now_ms.getD (msOfSec tnow)
  let s1 := ensureSegmentStarted s0 now
  let s2 := expireSnapshots cfg s1 now
  let final_tokens := tokenize text
  if final_tokens = [] then
    let s3 := force_segment_break cfg s2 now
    (s3, build_display_event s3 true)
  else
    let b := build_context_for_final s2 final_tokens
    let m := longestSuffixOverlap b.ctx final_tokens
    let s3 := (rescueOrphans cfg s2 b m).1
    let s4 := appendFinalSuffix cfg s3 (final_tokens.drop m)
    let s5 := { s4 with
        pending_tokens := [],
        segment_id := s4.segment_id + 1,
        segment_started_ms := some now }
    (s5, build_display_event s5 true)

/-- Source `reset` (lines 545-553): clear all buffers and the segment
counter.  Note that the metrics record is kept. -/
def reset (s : AccState) : AccState :=
  { s with
      stable := [],
      pending_tokens := [],
      awaiting_final := [],
      partial_history := [],
      segment_id := 0,
      segment_started_ms := none }

/-- Source `get_metrics` (lines 166-168): a copy of the counters. -/
def get_metrics (s : AccState) : Metrics := s.metrics

/-- One input event of a session: a partial, a final, or a forced
segment break, each carrying its clock reading (seconds) and the
optional explicit `now_ms` argument. -/
inductive Event where
  | ptl (text : Str) (tnow : ℚ) (now_ms : Option ℤ)
  | fin (text : Str) (tnow : ℚ) (now_ms : Option ℤ)
  | brk (tnow : ℚ) (now_ms : Option ℤ)
deriving DecidableEq

/-- The clock reading of an event. -/
def Event.tnow : Event → ℚ
  | .ptl _ t _ => t
  | .fin _ t _ => t
  | .brk t _ => t

/-- Apply one event to the accumulator state (ignoring the returned
display event). -/
def applyEvent (cfg : Config) (s : AccState) : Event → AccState
  | .ptl text t n => (add_partial_op cfg s text t n).1
  | .fin text t n => (add_final cfg s text t n).1
  | .brk t n => force_segment_break cfg s (n.getD (msOfSec t))

/-- Run a sequence of events. -/
def run (cfg : Config) (s : AccState) (evs : List Event) : AccState :=
  evs.foldl (applyEvent cfg) s

/-- Apply one event and also keep its display event (forced breaks
return none; the Python method returns `None`). -/
def applyEventOut (cfg : Config) (s : AccState) :
    Event → AccState × Option DisplayEvent
  | .ptl text t n =>
    let r := add_partial_op cfg s text t n
    (r.1, some r.2)
  | .fin text t n =>
    let r := add_final cfg s text t n
    (r.1, some r.2)
  | .brk t n => (force_segment_break cfg s (n.getD (msOfSec t)), none)

/-- Run a sequence of events collecting every display event produced. -/
def runTrace (cfg : Config) (s : AccState) :
    List Event → AccState × List (Option DisplayEvent)
  | [] => (s, [])
  | e :: evs =>
    let r := applyEventOut cfg s e
    let rest := runTrace cfg r.1 evs
    (rest.1, r.2 :: rest.2)

/-- The clock readings of the event list are non-decreasing, starting no
earlier than `t` (the spec assumes a monotonic clock; behaviour under a
regressing clock is explicitly undefined in spec §7). -/
def ClockMono : ℚ → List Event → Prop
  | _, [] => True
  | t, e :: es => t ≤ e.tnow ∧ ClockMono e.tnow es

/-- The clock reading after processing the events (the last event's
reading, or the start value for an empty list). -/
def clockEnd : ℚ → List Event → ℚ
  | t, [] => t
  | _, e :: es => clockEnd e.tnow es

/-- The ordering invariant of the pending deque (claim C10):
confirmation counts are non-increasing and first-seen times are
non-decreasing from front to back. -/
def PendingOrd (a b : Token) : Prop :=
  b.confirmation_count ≤ a.confirmation_count ∧
    a.first_seen_time ≤ b.first_seen_time

/-- A pending token that meets neither promotion threshold at clock
reading `tnow` (claim C4 / invariant I5): fewer than `K` confirmations
and age below `T`, with age measured exactly as the source measures it
(`int((time_fn() - first_seen_time) * 1000)`). -/
def TokenFresh (cfg : Config) (tnow : ℚ) (tok : Token) : Prop :=
  tok.confirmation_count < cfg.K ∧
    pyInt ((tnow - tok.first_seen_time) * 1000) < cfg.T_ms

/-- Run invariant used for C4/C10: the pending deque is ordered and all
its first-seen times are clock readings not later than `t`. -/
def PendingInv (t : ℚ) (s : AccState) : Prop :=
  s.pending_tokens.Pairwise PendingOrd ∧
    ∀ tok ∈ s.pending_tokens, tok.first_seen_time ≤ t

/-- Snapshot expiries are non-decreasing from front to back of
`awaiting_final`; this holds on every run whose operation times are
non-decreasing, because snapshots are appended with
`expiry = now + TTL`. -/
def ExpirySorted (l : List Snapshot) : Prop :=
  l.Pairwise fun a b => a.expiry_ms ≤ b.expiry_ms

/-- Predicate used to state C7: the non-whitespace characters of a
string, in order. -/
def visChars (s : Str) : Str := s.filter fun c => !isSpace c

/-- The candidate context built from snapshot `i` in
`_build_context_for_final`: stable tail (64) ++ snapshot tokens ++
pending texts. -/
def snapCandCtx (s : AccState) (i : ℕ) : List Str :=
  lastN 64 s.stable ++
    (s.awaiting_final.getD i dummySnap).tokens.map Token.text ++
    s.pending_tokens.map Token.text

/-- The overlap achieved by the candidate context of snapshot `i`. -/
def snapCandOverlap (s : AccState) (finT : List Str) (i : ℕ) : ℕ :=
  longestSuffixOverlap (snapCandCtx s i) finT

/-- The no-snapshot candidate context: stable tail (64) ++ pending. -/
def nosnapCtx (s : AccState) : List Str :=
  lastN 64 s.stable ++ s.pending_tokens.map Token.text

/-- The overlap achieved by the no-snapshot candidate. -/
def nosnapOverlap (s : AccState) (finT : List Str) : ℕ :=
  longestSuffixOverlap (nosnapCtx s) finT

/-- Claim C2's input: partial `alpha beta` at the clock reading 0 s,
then partial `beta gamma` at 1.6 s, on a fresh accumulator with the
default configuration (K = 2, T = 1400 ms). -/
def c2events : List Event :=
  [.ptl "alpha beta".data 0 none, .ptl "beta gamma".data (8/5) none]

/-- Claim C3's counterexample input: a partial creates a pending token,
a forced break at `now_ms = 1` shelves it (expiry 5001), and a second
forced break at `now_ms = 6000` runs with the snapshot long expired. -/
def c3events : List Event :=
  [.ptl "a".data 0 none, .brk 0 (some 1), .brk 0 (some 6000)]

/-- Claim C5's counterexample state: stable `x`, one snapshot holding
`y`, no pending. -/
def c5state : AccState :=
  ⟨["x".data], [], [⟨[⟨"y".data, 1, 0, 0⟩], 0, 5000, 0⟩], [], 0, none,
    initMetrics⟩

/-- Witness state for the amended C3: one unexpired snapshot. -/
def w3state : AccState :=
  ⟨[], [], [⟨[⟨"b".data, 1, 0, 0⟩], 0, 5001, 0⟩], [],
    1, some 0, initMetrics⟩

/-- Witness state for C5: one snapshot holding `y` and a final that
overlaps it. -/
def w5state : AccState :=
  ⟨["x".data], [], [⟨[⟨"y".data, 1, 0, 0⟩], 0, 5000, 0⟩], [], 0, none,
    initMetrics⟩

/-- Witness state for C8: a non-empty pending deque. -/
def w8state : AccState :=
  ⟨["one".data], [⟨"two".data, 1, 0, 0⟩], [], [], 3, some 0, initMetrics⟩

/-- Witness events for C9 and C10. -/
def w9events : List Event :=
  [.ptl "hello world".data 0 none, .fin "hello world again".data (1/2) none]

/-- Witness events for C10: two partials with non-decreasing clock. -/
def c10events : List Event :=
  [.ptl "a b".data 0 none, .ptl "a b c".data (1/2) none]

/- ------------------------------------------------------------------ -/
/- Theorems.                                                          -/
/- ------------------------------------------------------------------ -/

theorem isAlnum_not_space {c : Char} (h : isAlnum c = true) :
    isSpace c = false := by
  cases hs : isSpace c with
  | false => rfl
  | true =>
    exfalso
    simp only [isSpace, decide_eq_true_eq, List.mem_cons,
      List.not_mem_nil, or_false] at hs
    rcases hs with rfl | rfl | rfl | rfl | rfl | rfl <;>
      exact absurd h (by decide)

theorem visChars_takeWhile_alnum (l : Str) :
    visChars (l.takeWhile isAlnum) = l.takeWhile isAlnum := by
  refine List.filter_eq_self.mpr ?_
  intro a ha
  have := List.mem_takeWhile_imp ha
  simp [isAlnum_not_space this]

theorem length_dropWhile_le (p : α → Bool) (l : List α) :
    (l.dropWhile p).length ≤ l.length :=
  (List.dropWhile_suffix p).sublist.length_le

theorem tokenizeAux_nil (fuel : ℕ) : tokenizeAux fuel [] = [] := by
  match fuel with
  | 0 => rfl
  | _ + 1 => rfl

theorem tokenizeAux_space {c : Char} (fuel : ℕ) (rest : Str)
    (h : isSpace c = true) :
    tokenizeAux (fuel + 1) (c :: rest) = tokenizeAux fuel rest := by
  simp [tokenizeAux, h]

theorem tokenizeAux_punct {c : Char} (fuel : ℕ) (rest : Str)
    (h1 : isSpace c = false) (h2 : isAlnum c = false) :
    tokenizeAux (fuel + 1) (c :: rest) = [c] :: tokenizeAux fuel rest := by
  simp [tokenizeAux, h1, h2]

theorem tokenizeAux_alnum_stop {c : Char} (fuel : ℕ) (rest tl : Str)
    (h1 : isSpace c = false) (h2 : isAlnum c = true)
    (hdw : rest.dropWhile isAlnum = tl)
    (htl : tl = [] ∨ ∃ q, tl = [q]) :
    tokenizeAux (fuel + 1) (c :: rest) =
      (c :: rest.takeWhile isAlnum) :: tokenizeAux fuel tl := by
  rcases htl with rfl | ⟨q, rfl⟩
  · simp [tokenizeAux, h1, h2, hdw, tokenizeAux_nil]
  · simp [tokenizeAux, h1, h2, hdw]

theorem tokenizeAux_alnum_apos {c q d : Char} (fuel : ℕ) (rest rest2 : Str)
    (h1 : isSpace c = false) (h2 : isAlnum c = true)
    (hdw : rest.dropWhile isAlnum = q :: d :: rest2)
    (hq : q = apos) (hd : isAlnum d = true) :
    tokenizeAux (fuel + 1) (c :: rest) =
      ((c :: rest.takeWhile isAlnum) ++ apos :: d :: rest2.takeWhile isAlnum)
        :: tokenizeAux fuel (rest2.dropWhile isAlnum) := by
  simp [tokenizeAux, h1, h2, hdw, hq, hd]

theorem tokenizeAux_alnum_noapos {c q d : Char} (fuel : ℕ) (rest rest2 : Str)
    (h1 : isSpace c = false) (h2 : isAlnum c = true)
    (hdw : rest.dropWhile isAlnum = q :: d :: rest2)
    (hqd : ¬(q = apos ∧ isAlnum d = true)) :
    tokenizeAux (fuel + 1) (c :: rest) =
      (c :: rest.takeWhile isAlnum) :: tokenizeAux fuel (q :: d :: rest2) := by
  simp only [tokenizeAux, h1, Bool.false_eq_true, if_false, h2, if_true, hdw]
  simp [hqd]

theorem visChars_split (rest : Str) :
    visChars rest =
      rest.takeWhile isAlnum ++ visChars (rest.dropWhile isAlnum) := by
  conv_lhs => rw [← List.takeWhile_append_dropWhile isAlnum rest]
  have h := visChars_takeWhile_alnum rest
  simp only [visChars] at h ⊢
  rw [List.filter_append, h]

theorem visChars_cons_of_not_space {c : Char} (l : Str)
    (h : isSpace c = false) : visChars (c :: l) = c :: visChars l := by
  simp [visChars, List.filter_cons, h]

theorem tokenizeAux_flatten :
    ∀ (fuel : ℕ) (l : Str), l.length ≤ fuel →
      (tokenizeAux fuel l).flatten = visChars l := by
  intro fuel
  induction fuel with
  | zero =>
    intro l hl
    have : l = [] := List.eq_nil_of_length_eq_zero (Nat.le_zero.mp hl)
    subst this; rfl
  | succ fuel ih =>
    intro l hl
    match l with
    | [] => rfl
    | c :: rest =>
      have hrest : rest.length ≤ fuel := by
        simpa [List.length_cons] using hl
      by_cases hsp : isSpace c
      · rw [tokenizeAux_space fuel rest hsp, ih rest hrest]
        simp [visChars, List.filter_cons, hsp]
      · have hspf : isSpace c = false := by simpa using hsp
        rw [visChars_cons_of_not_space rest hspf]
        by_cases hal : isAlnum c
        · -- alphanumeric run, possibly with an apostrophe continuation
          rw [visChars_split rest]
          rcases hdw : rest.dropWhile isAlnum with _ | ⟨q, rest1⟩
          · rw [tokenizeAux_alnum_stop fuel rest [] hspf hal hdw (Or.inl rfl),
              tokenizeAux_nil]
            simp [visChars]
          · rcases rest1 with _ | ⟨d, rest2⟩
            · -- dropWhile produced exactly one more character
              rw [tokenizeAux_alnum_stop fuel rest [q] hspf hal hdw
                (Or.inr ⟨q, rfl⟩)]
              have hq1 : ([q] : Str).length ≤ fuel := by
                have := length_dropWhile_le isAlnum rest
                rw [hdw] at this
                omega
              rw [List.flatten_cons, ih [q] hq1]
              simp
            · by_cases hap : q = apos ∧ isAlnum d = true
              · -- apostrophe continuation token
                rw [tokenizeAux_alnum_apos fuel rest rest2 hspf hal hdw
                  hap.1 hap.2]
                have hlen2 : (rest2.dropWhile isAlnum).length ≤ fuel := by
                  have h1 := length_dropWhile_le isAlnum rest
                  have h2 := length_dropWhile_le isAlnum rest2
                  rw [hdw] at h1
                  simp only [List.length_cons] at h1
                  omega
                rw [List.flatten_cons, ih _ hlen2]
                obtain ⟨rfl, hald⟩ := hap
                have hapos : isSpace apos = false := by decide
                rw [visChars_cons_of_not_space _ hapos,
                  visChars_cons_of_not_space _ (isAlnum_not_space hald),
                  visChars_split rest2]
                simp
              · -- no apostrophe continuation
                rw [tokenizeAux_alnum_noapos fuel rest rest2 hspf hal hdw hap]
                have hq1 : (q :: d :: rest2 : Str).length ≤ fuel := by
                  have := length_dropWhile_le isAlnum rest
                  rw [hdw] at this
                  simp only [List.length_cons] at this ⊢
                  omega
                rw [List.flatten_cons, ih _ hq1]
                simp
        · -- single punctuation character
          have half : isAlnum c = false := by simpa using hal
          rw [tokenizeAux_punct fuel rest hspf half,
            List.flatten_cons, ih rest hrest]
          simp [visChars]

theorem tokenizeAux_no_space :
    ∀ (fuel : ℕ) (l : Str), ∀ tok ∈ tokenizeAux fuel l,
      ∀ ch ∈ tok, isSpace ch = false := by
  intro fuel
  induction fuel with
  | zero => intro l tok htok; simp [tokenizeAux] at htok
  | succ fuel ih =>
    intro l tok htok ch hch
    match l with
    | [] => simp [tokenizeAux_nil] at htok
    | c :: rest =>
      by_cases hsp : isSpace c
      · rw [tokenizeAux_space fuel rest hsp] at htok
        exact ih rest tok htok ch hch
      · have hspf : isSpace c = false := by simpa using hsp
        by_cases hal : isAlnum c
        · rcases hdw : rest.dropWhile isAlnum with _ | ⟨q, rest1⟩
          · rw [tokenizeAux_alnum_stop fuel rest [] hspf hal hdw (Or.inl rfl),
              tokenizeAux_nil] at htok
            simp only [List.mem_singleton] at htok
            subst htok
            rcases List.mem_cons.mp hch with rfl | hch2
            · exact hspf
            · exact isAlnum_not_space (List.mem_takeWhile_imp hch2)
          · rcases rest1 with _ | ⟨d, rest2⟩
            · rw [tokenizeAux_alnum_stop fuel rest [q] hspf hal hdw
                (Or.inr ⟨q, rfl⟩)] at htok
              rcases List.mem_cons.mp htok with rfl | htok2
              · rcases List.mem_cons.mp hch with rfl | hch2
                · exact hspf
                · exact isAlnum_not_space (List.mem_takeWhile_imp hch2)
              · exact ih _ tok htok2 ch hch
            · by_cases hap : q = apos ∧ isAlnum d = true
              · rw [tokenizeAux_alnum_apos fuel rest rest2 hspf hal hdw
                  hap.1 hap.2] at htok
                rcases List.mem_cons.mp htok with rfl | htok2
                · rcases List.mem_append.mp hch with hch2 | hch2
                  · rcases List.mem_cons.mp hch2 with rfl | hch3
                    · exact hspf
                    · exact isAlnum_not_space (List.mem_takeWhile_imp hch3)
                  · rcases List.mem_cons.mp hch2 with rfl | hch3
                    · decide
                    · rcases List.mem_cons.mp hch3 with rfl | hch4
                      · exact isAlnum_not_space hap.2
                      · exact isAlnum_not_space (List.mem_takeWhile_imp hch4)
                · exact ih _ tok htok2 ch hch
              · rw [tokenizeAux_alnum_noapos fuel rest rest2 hspf hal hdw
                  hap] at htok
                rcases List.mem_cons.mp htok with rfl | htok2
                · rcases List.mem_cons.mp hch with rfl | hch2
                  · exact hspf
                  · exact isAlnum_not_space (List.mem_takeWhile_imp hch2)
                · exact ih _ tok htok2 ch hch
        · have half : isAlnum c = false := by simpa using hal
          rw [tokenizeAux_punct fuel rest hspf half] at htok
          rcases List.mem_cons.mp htok with rfl | htok2
          · rcases List.mem_singleton.mp hch with rfl
            exact hspf
          · exact ih rest tok htok2 ch hch

theorem visChars_detokAux (ts : List Str) :
    visChars (detokAux ts) = (ts.map visChars).flatten := by
  induction ts with
  | nil => rfl
  | cons t ts ih =>
    simp only [detokAux, List.map_cons, List.flatten_cons, ← ih]
    by_cases hp : isPunct1 t
    · simp [hp, visChars, List.filter_append]
    · simp only [hp, if_false, Bool.false_eq_true]
      simp [visChars, List.filter_cons, List.filter_append, isSpace]

theorem visChars_detokenize (ts : List Str) :
    visChars (detokenize ts) = (ts.map visChars).flatten := by
  cases ts with
  | nil => rfl
  | cons t ts =>
    simp only [detokenize, List.map_cons, List.flatten_cons,
      ← visChars_detokAux ts]
    simp [visChars, List.filter_append]

theorem flatten_map_visChars_of_no_space (ts : List Str)
    (h : ∀ tok ∈ ts, ∀ ch ∈ tok, isSpace ch = false) :
    (ts.map visChars).flatten = ts.flatten := by
  induction ts with
  | nil => rfl
  | cons t ts ih =>
    simp only [List.map_cons, List.flatten_cons]
    rw [ih fun tok htok => h tok (List.mem_cons_of_mem t htok)]
    congr 1
    exact List.filter_eq_self.mpr fun a ha => by
      simp [h t (List.mem_cons_self t ts) a ha]

/-- Claim C7: for every input string, `detokenize (tokenize text)` agrees
with `text` on the sequence of non-whitespace characters (round trip up
to whitespace normalization). -/
theorem C7_roundtrip (text : Str) :
    visChars (detokenize (tokenize text)) = visChars text := by
  rw [visChars_detokenize, tokenize,
    flatten_map_visChars_of_no_space _
      (tokenizeAux_no_space text.length text),
    tokenizeAux_flatten text.length text le_rfl]

/- Projection lemmas: which state components each step function leaves
untouched. -/

theorem ensure_stable (s : AccState) (now : ℤ) :
    (ensureSegmentStarted s now).stable = s.stable := by
  unfold ensureSegmentStarted
  cases s.segment_started_ms <;> rfl

theorem ensure_pending (s : AccState) (now : ℤ) :
    (ensureSegmentStarted s now).pending_tokens = s.pending_tokens := by
  unfold ensureSegmentStarted
  cases s.segment_started_ms <;> rfl

theorem ensure_awaiting (s : AccState) (now : ℤ) :
    (ensureSegmentStarted s now).awaiting_final = s.awaiting_final := by
  unfold ensureSegmentStarted
  cases s.segment_started_ms <;> rfl

theorem ensure_segment_id (s : AccState) (now : ℤ) :
    (ensureSegmentStarted s now).segment_id = s.segment_id := by
  unfold ensureSegmentStarted
  cases s.segment_started_ms <;> rfl

theorem expireAux_stable_ext (cfg : Config) (now : ℤ) :
    ∀ (l : List Snapshot) (st : List Str) (m : Metrics),
      ∃ ext, (expireAux cfg now l st m).2.1 = st ++ ext := by
  intro l
  induction l with
  | nil => intro st m; exact ⟨[], by simp [expireAux]⟩
  | cons snap rest ih =>
    intro st m
    by_cases h : snap.expiry_ms ≤ now
    · simp only [expireAux, h, if_true]
      obtain ⟨ext, hext⟩ := ih (st ++ (dedup cfg st m (snap.tokens.map Token.text)).1) _
      exact ⟨_, by rw [hext, List.append_assoc]⟩
    · exact ⟨[], by simp [expireAux, h]⟩

theorem expire_stable_pref (cfg : Config) (s : AccState) (now : ℤ) :
    s.stable <+: (expireSnapshots cfg s now).stable := by
  obtain ⟨ext, hext⟩ :=
    expireAux_stable_ext cfg now s.awaiting_final s.stable s.metrics
  exact ⟨ext, hext.symm⟩

theorem expire_pending (cfg : Config) (s : AccState) (now : ℤ) :
    (expireSnapshots cfg s now).pending_tokens = s.pending_tokens := rfl

theorem expire_segment_id (cfg : Config) (s : AccState) (now : ℤ) :
    (expireSnapshots cfg s now).segment_id = s.segment_id := rfl

theorem history_stable (cfg : Config) (s : AccState) (toks : List Str)
    (now : ℤ) : (recordPartialHistory cfg s toks now).stable = s.stable := rfl

theorem history_pending (cfg : Config) (s : AccState) (toks : List Str)
    (now : ℤ) :
    (recordPartialHistory cfg s toks now).pending_tokens =
      s.pending_tokens := rfl

theorem history_awaiting (cfg : Config) (s : AccState) (toks : List Str)
    (now : ℤ) :
    (recordPartialHistory cfg s toks now).awaiting_final =
      s.awaiting_final := rfl

theorem align_stable (s : AccState) (cur : List Str) (tnow : ℚ) :
    (alignPending s cur tnow).stable = s.stable := rfl

theorem align_awaiting (s : AccState) (cur : List Str) (tnow : ℚ) :
    (alignPending s cur tnow).awaiting_final = s.awaiting_final := rfl

theorem promote_stable_pref (cfg : Config) (tnow : ℚ) (s : AccState) :
    s.stable <+: (promoteLeftmostReady cfg tnow s).1.stable := by
  by_cases h : (collectReady cfg tnow s.pending_tokens).batch = []
  · simp [promoteLeftmostReady, h]
  · simp only [promoteLeftmostReady, h, if_false]
    exact List.prefix_append _ _

theorem promote_awaiting (cfg : Config) (tnow : ℚ) (s : AccState) :
    (promoteLeftmostReady cfg tnow s).1.awaiting_final =
      s.awaiting_final := by
  by_cases h : (collectReady cfg tnow s.pending_tokens).batch = [] <;>
    simp [promoteLeftmostReady, h]

theorem promote_pending (cfg : Config) (tnow : ℚ) (s : AccState) :
    (promoteLeftmostReady cfg tnow s).1.pending_tokens =
      (collectReady cfg tnow s.pending_tokens).remaining := by
  by_cases h : (collectReady cfg tnow s.pending_tokens).batch = [] <;>
    simp [promoteLeftmostReady, h]

theorem promote_segment_id (cfg : Config) (tnow : ℚ) (s : AccState) :
    (promoteLeftmostReady cfg tnow s).1.segment_id = s.segment_id := by
  by_cases h : (collectReady cfg tnow s.pending_tokens).batch = [] <;>
    simp [promoteLeftmostReady, h]

theorem snapshotPending_stable (cfg : Config) (s : AccState) (now : ℤ) :
    (snapshotPending cfg s now).stable = s.stable := by
  unfold snapshotPending
  split <;> rfl

theorem break_stable (cfg : Config) (s : AccState) (now : ℤ) :
    (force_segment_break cfg s now).stable = s.stable := by
  unfold force_segment_break
  exact snapshotPending_stable cfg s now

theorem break_pending (cfg : Config) (s : AccState) (now : ℤ) :
    (force_segment_break cfg s now).pending_tokens = [] := rfl

theorem snapshotPending_segment_id (cfg : Config) (s : AccState) (now : ℤ) :
    (snapshotPending cfg s now).segment_id = s.segment_id := by
  unfold snapshotPending
  split <;> rfl

theorem break_segment_id (cfg : Config) (s : AccState) (now : ℤ) :
    (force_segment_break cfg s now).segment_id = s.segment_id + 1 := by
  unfold force_segment_break
  simp [snapshotPending_segment_id]

theorem timeout_stable (cfg : Config) (s : AccState) (now : ℤ) :
    (maybeSegmentTimeout cfg s now).stable = s.stable := by
  unfold maybeSegmentTimeout
  cases s.segment_started_ms with
  | none => rfl
  | some st =>
    by_cases h : cfg.max_segment_ms ≤ now - st <;> simp [h, break_stable]

theorem dropEmptyChosen_stable (idx : ℕ) (s : AccState) :
    (dropEmptyChosen idx s).stable = s.stable := by
  simp only [dropEmptyChosen]
  by_cases hc : (s.awaiting_final.getD idx dummySnap).tokens = []
  · rw [if_pos hc]
  · rw [if_neg hc]

theorem dropEmptyChosen_pending (idx : ℕ) (s : AccState) :
    (dropEmptyChosen idx s).pending_tokens = s.pending_tokens := by
  simp only [dropEmptyChosen]
  by_cases hc : (s.awaiting_final.getD idx dummySnap).tokens = []
  · rw [if_pos hc]
  · rw [if_neg hc]

theorem dropEmptyChosen_mem (idx : ℕ) (s : AccState) (snap : Snapshot)
    (h : snap ∈ (dropEmptyChosen idx s).awaiting_final) :
    snap ∈ s.awaiting_final := by
  simp only [dropEmptyChosen] at h
  by_cases hc : (s.awaiting_final.getD idx dummySnap).tokens = []
  · rw [if_pos hc] at h
    exact List.mem_of_mem_erase h
  · rwa [if_neg hc] at h

theorem addRescueMetrics_stable (r : ℕ) (s : AccState) :
    (addRescueMetrics r s).stable = s.stable := by
  simp only [addRescueMetrics]
  by_cases hc : 0 < r
  · rw [if_pos hc]
  · rw [if_neg hc]

theorem addRescueMetrics_pending (r : ℕ) (s : AccState) :
    (addRescueMetrics r s).pending_tokens = s.pending_tokens := by
  simp only [addRescueMetrics]
  by_cases hc : 0 < r
  · rw [if_pos hc]
  · rw [if_neg hc]

theorem addRescueMetrics_awaiting (r : ℕ) (s : AccState) :
    (addRescueMetrics r s).awaiting_final = s.awaiting_final := by
  simp only [addRescueMetrics]
  by_cases hc : 0 < r
  · rw [if_pos hc]
  · rw [if_neg hc]

theorem rescue_stable_pref (cfg : Config) (s2 : AccState) (b : BestCtx)
    (m : ℕ) : s2.stable <+: (rescueOrphans cfg s2 b m).1.stable := by
  obtain ⟨ctx, sidx, lst, lsnap, lpend, ov⟩ := b
  cases sidx with
  | none => simp [rescueOrphans]
  | some idx =>
    by_cases hs : 0 < lsnap
    · by_cases hle : ((lst : ℤ) ≤
          min ((lst : ℤ) + (lsnap : ℤ) - 1)
            ((ctx.length : ℤ) - (m : ℤ) - 1))
      · simp only [rescueOrphans, hs, hle, if_true]
        rw [addRescueMetrics_stable, dropEmptyChosen_stable]
        exact List.prefix_append _ _
      · simp only [rescueOrphans, hs, hle, if_true, if_false]
        rw [addRescueMetrics_stable, dropEmptyChosen_stable]
    · simp [rescueOrphans, hs]

theorem appendSuffix_stable_pref (cfg : Config) (s3 : AccState)
    (ta : List Str) : s3.stable <+: (appendFinalSuffix cfg s3 ta).stable := by
  by_cases h : ta = []
  · simp [appendFinalSuffix, h]
  · simp only [appendFinalSuffix, h, if_false]
    exact List.prefix_append _ _

/-- Claim C1 helper: a single event only ever appends to `stable`. -/
theorem applyEvent_stable_pref (cfg : Config) (s : AccState) (e : Event) :
    s.stable <+: (applyEvent cfg s e).stable := by
  cases e with
  | brk t n =>
    rw [applyEvent, break_stable]
  | ptl text t n =>
    simp only [applyEvent, add_partial_op]
    rw [timeout_stable]
    refine List.IsPrefix.trans ?_ (promote_stable_pref cfg t _)
    rw [align_stable, history_stable]
    refine List.IsPrefix.trans ?_ (expire_stable_pref cfg _ _)
    rw [ensure_stable]
  | fin text t n =>
    simp only [applyEvent, add_final]
    split
    · rw [break_stable]
      refine List.IsPrefix.trans ?_ (expire_stable_pref cfg _ _)
      rw [ensure_stable]
    · dsimp only
      refine List.IsPrefix.trans ?_ (appendSuffix_stable_pref cfg _ _)
      refine List.IsPrefix.trans ?_ (rescue_stable_pref cfg _ _ _)
      refine List.IsPrefix.trans ?_ (expire_stable_pref cfg _ _)
      rw [ensure_stable]

/-- Claim C1: across any sequence of `add_partial` / `add_final` /
`force_segment_break` calls (reset excluded), the stable transcript
before the calls is a prefix of the stable transcript after them: no
element is ever removed, replaced or reordered.  Instantiating `s` with
any intermediate state gives the per-call statement. -/
theorem C1_stable_monotone (cfg : Config) (s : AccState)
    (evs : List Event) : s.stable <+: (run cfg s evs).stable := by
  induction evs generalizing s with
  | nil => exact List.prefix_rfl
  | cons e evs ih =>
    calc s.stable <+: (applyEvent cfg s e).stable :=
          applyEvent_stable_pref cfg s e
      _ <+: (run cfg (applyEvent cfg s e) evs).stable := ih _
      _ = (run cfg s (e :: evs)).stable := rfl

/-- Claim C2 (code bug): with K = 2 and T = 1400 ms, after
`add_partial("alpha beta")` at t = 0 s and `add_partial("beta gamma")`
at t = 1.6 s, the claim (and the repository's own test
`test_t_timeout_promotion`) expects `stable = ["alpha"]`, promoted by
T-timeout.  The code instead leaves `stable` empty: inside `add_partial`
the LCP alignment (LCP of `[alpha, beta]` and `[beta, gamma]` is 0)
drops `alpha` from `pending` before `_promote_leftmost_ready` runs, so
the aged token is discarded rather than flushed, and the pending deque
holds the fresh `beta gamma`. -/
theorem C2_t_timeout_code_bug :
    (run defaultConfig initState c2events).stable = [] ∧
    (run defaultConfig initState c2events).pending_tokens.map Token.text =
      ["beta".data, "gamma".data] ∧
    (run defaultConfig initState c2events).metrics.tokens_committed_by_flush
      = 0 := by
  with_unfolding_all decide

/- Supporting lemmas for C3. -/

theorem expireAux_mem_expiry (cfg : Config) (now : ℤ) :
    ∀ (l : List Snapshot) (st : List Str) (m : Metrics),
      ExpirySorted l →
      ∀ snap ∈ (expireAux cfg now l st m).1, now < snap.expiry_ms := by
  intro l
  induction l with
  | nil => intro st m _ snap h; simp [expireAux] at h
  | cons s0 rest ih =>
    intro st m hsort snap hmem
    by_cases h : s0.expiry_ms ≤ now
    · simp only [expireAux, h, if_true] at hmem
      exact ih _ _ (List.pairwise_cons.mp hsort).2 snap hmem
    · simp only [expireAux, h, if_false] at hmem
      rcases List.mem_cons.mp hmem with rfl | hmem2
      · omega
      · have := (List.pairwise_cons.mp hsort).1 snap hmem2
        omega

theorem expire_awaiting (cfg : Config) (s : AccState) (now : ℤ) :
    (expireSnapshots cfg s now).awaiting_final =
      (expireAux cfg now s.awaiting_final s.stable s.metrics).1 := rfl

theorem expire_awaiting_expiry (cfg : Config) (s : AccState) (now : ℤ)
    (hsort : ExpirySorted s.awaiting_final) :
    ∀ snap ∈ (expireSnapshots cfg s now).awaiting_final,
      now < snap.expiry_ms :=
  expireAux_mem_expiry cfg now s.awaiting_final s.stable s.metrics hsort

theorem snapshotPending_mem (cfg : Config) (s : AccState) (now : ℤ)
    (snap : Snapshot)
    (h : snap ∈ (snapshotPending cfg s now).awaiting_final) :
    snap ∈ s.awaiting_final ∨
      snap.expiry_ms = now + cfg.awaiting_final_ttl_ms := by
  by_cases hp : s.pending_tokens = []
  · simp only [snapshotPending, hp, if_true] at h
    exact Or.inl h
  · simp only [snapshotPending, hp, if_false] at h
    rcases List.mem_append.mp h with h2 | h2
    · exact Or.inl h2
    · rcases List.mem_singleton.mp h2 with rfl
      exact Or.inr rfl

theorem break_awaiting (cfg : Config) (s : AccState) (now : ℤ) :
    (force_segment_break cfg s now).awaiting_final =
      (snapshotPending cfg s now).awaiting_final := rfl

theorem break_awaiting_expiry (cfg : Config) (s : AccState) (now : ℤ)
    (h : ∀ snap ∈ s.awaiting_final, now < snap.expiry_ms)
    (httl : 0 < cfg.awaiting_final_ttl_ms) :
    ∀ snap ∈ (force_segment_break cfg s now).awaiting_final,
      now < snap.expiry_ms := by
  intro snap hmem
  rw [break_awaiting] at hmem
  rcases snapshotPending_mem cfg s now snap hmem with h2 | h2
  · exact h snap h2
  · omega

theorem timeout_awaiting_expiry (cfg : Config) (s : AccState) (now : ℤ)
    (h : ∀ snap ∈ s.awaiting_final, now < snap.expiry_ms)
    (httl : 0 < cfg.awaiting_final_ttl_ms) :
    ∀ snap ∈ (maybeSegmentTimeout cfg s now).awaiting_final,
      now < snap.expiry_ms := by
  unfold maybeSegmentTimeout
  cases hst : s.segment_started_ms with
  | none => exact h
  | some st =>
    by_cases hto : cfg.max_segment_ms ≤ now - st
    · simp only [hto, if_true]
      exact break_awaiting_expiry cfg s now h httl
    · simp only [hto, if_false]
      exact h

theorem appendSuffix_awaiting (cfg : Config) (s3 : AccState)
    (ta : List Str) :
    (appendFinalSuffix cfg s3 ta).awaiting_final = s3.awaiting_final := by
  by_cases h : ta = [] <;> simp [appendFinalSuffix, h]

theorem foldl_bestStep_idx (finT st pend : List Str) (P : ℕ → Prop) :
    ∀ (cs : List (ℕ × Snapshot)) (b0 : BestCtx),
      (∀ i, b0.snap_idx = some i → P i) → (∀ p ∈ cs, P p.1) →
      ∀ i, (cs.foldl (bestStep finT st pend) b0).snap_idx = some i → P i := by
  intro cs
  induction cs with
  | nil => intro b0 h0 _ i hi; exact h0 i hi
  | cons p rest ih =>
    intro b0 h0 hcs i hi
    rw [List.foldl_cons] at hi
    refine ih (bestStep finT st pend b0 p) ?_
      (fun q hq => hcs q (List.mem_cons_of_mem p hq)) i hi
    intro j hj
    unfold bestStep at hj
    by_cases hlt : b0.overlap <
        longestSuffixOverlap (st ++ p.2.tokens.map Token.text ++ pend) finT
    · simp only [hlt, if_true] at hj
      cases hj
      exact hcs p (List.mem_cons_self p rest)
    · simp only [hlt, if_false] at hj
      exact h0 j hj

theorem mem_enum_fst_lt {l : List Snapshot} {p : ℕ × Snapshot}
    (h : p ∈ l.enum) : p.1 < l.length := by
  have h2 : p.1 ∈ (l.enum).map Prod.fst := List.mem_map_of_mem Prod.fst h
  rw [List.enum_map_fst] at h2
  exact List.mem_range.mp h2

theorem bcf_snap_idx_lt (s : AccState) (f : List Str) :
    ∀ i, (build_context_for_final s f).snap_idx = some i →
      i < s.awaiting_final.length := by
  intro i hi
  unfold build_context_for_final at hi
  by_cases hm : (((s.awaiting_final.enum.reverse).foldl
      (bestStep f (lastN 64 s.stable) (s.pending_tokens.map Token.text))
      ⟨[], none, 0, 0, 0, 0⟩).overlap <
      longestSuffixOverlap
        (lastN 64 s.stable ++ s.pending_tokens.map Token.text) f)
  · simp only [hm, if_true] at hi
    exact absurd hi (by simp)
  · simp only [hm, if_false] at hi
    refine foldl_bestStep_idx f (lastN 64 s.stable)
      (s.pending_tokens.map Token.text) (· < s.awaiting_final.length)
      (s.awaiting_final.enum.reverse) ⟨[], none, 0, 0, 0, 0⟩
      (by intro j hj; exact absurd hj (by simp)) ?_ i hi
    intro p hp
    exact mem_enum_fst_lt (List.mem_reverse.mp hp)

theorem rescue_awaiting_expiry (cfg : Config) (s2 : AccState) (b : BestCtx)
    (m : ℕ) (now : ℤ)
    (hidx : ∀ i, b.snap_idx = some i → i < s2.awaiting_final.length)
    (h : ∀ snap ∈ s2.awaiting_final, now < snap.expiry_ms) :
    ∀ snap ∈ (rescueOrphans cfg s2 b m).1.awaiting_final,
      now < snap.expiry_ms := by
  obtain ⟨ctx, sidx, lst, lsnap, lpend, ov⟩ := b
  cases sidx with
  | none => simpa [rescueOrphans] using h
  | some idx =>
    have hlen : idx < s2.awaiting_final.length := hidx idx rfl
    have hget : s2.awaiting_final.getD idx dummySnap ∈ s2.awaiting_final := by
      rw [List.getD_eq_getElem s2.awaiting_final dummySnap hlen]
      exact List.getElem_mem hlen
    by_cases hs : 0 < lsnap
    · by_cases hle : ((lst : ℤ) ≤
          min ((lst : ℤ) + (lsnap : ℤ) - 1)
            ((ctx.length : ℤ) - (m : ℤ) - 1))
      · simp only [rescueOrphans, hs, hle, if_true]
        intro snap hmem
        rw [addRescueMetrics_awaiting] at hmem
        have hmem2 := dropEmptyChosen_mem _ _ _ hmem
        rcases List.mem_or_eq_of_mem_set hmem2 with hx2 | hx2
        · exact h snap hx2
        · subst hx2
          have := h _ hget
          simpa using this
      · simp only [rescueOrphans, hs, hle, if_true, if_false]
        intro snap hmem
        rw [addRescueMetrics_awaiting] at hmem
        exact h snap (dropEmptyChosen_mem _ _ _ hmem)
    · simpa [rescueOrphans, hs] using h

/-- Claim C3 counterexample: run a partial at clock 0, a forced break at
`now_ms = 1` (snapshot expiry 5001), then a forced break at
`now_ms = 6000`.  `force_segment_break` never calls `_expire_snapshots`,
so after it returns at logical time 6000 the queue still holds a
snapshot with `expiry_ms = 5001 ≤ 6000`, refuting the claimed invariant
for `force_segment_break`. -/
theorem C3_counterexample :
    ((run defaultConfig initState c3events).awaiting_final.map
        Snapshot.expiry_ms = [5001]) ∧
    ¬(∀ snap ∈ (run defaultConfig initState c3events).awaiting_final,
        6000 < snap.expiry_ms) := by
  with_unfolding_all decide

/-- Claim C3 as amended: `_expire_snapshots` runs at the top of
`add_partial` and `add_final` only (not of `force_segment_break`,
`build_display_event` or `get_metrics`).  Provided the snapshot queue's
expiries are front-to-back non-decreasing (which monotone operation
times maintain) and the TTL is positive, after `add_partial` or
`add_final` returns at resolved logical time `now`, every snapshot still
in `awaiting_final` satisfies `expiry_ms > now`; expired front snapshots
were auto-committed by `_expire_snapshots` before any other work of the
operation. -/
theorem C3_amended_ttl_bound (cfg : Config) (s : AccState) (text : Str)
    (tnow : ℚ) (now_ms : Option ℤ)
    (hsort : ExpirySorted s.awaiting_final)
    (httl : 0 < cfg.awaiting_final_ttl_ms) :
    (∀ snap ∈ (add_partial_op cfg s text tnow now_ms).1.awaiting_final,
        now_ms.getD (msOfSec tnow) < snap.expiry_ms) ∧
    (∀ snap ∈ (add_final cfg s text tnow now_ms).1.awaiting_final,
        now_ms.getD (msOfSec tnow) < snap.expiry_ms) := by
  constructor
  · simp only [add_partial_op]
    refine timeout_awaiting_expiry cfg _ _ ?_ httl
    rw [promote_awaiting, align_awaiting, history_awaiting]
    refine expire_awaiting_expiry cfg _ _ ?_
    rw [ensure_awaiting]
    exact hsort
  · simp only [add_final]
    split
    · -- empty final: forced segment break after expiry
      refine break_awaiting_expiry cfg _ _ ?_ httl
      refine expire_awaiting_expiry cfg _ _ ?_
      rw [ensure_awaiting]
      exact hsort
    · dsimp only
      rw [appendSuffix_awaiting]
      refine rescue_awaiting_expiry cfg _ _ _ _ (bcf_snap_idx_lt _ _) ?_
      refine expire_awaiting_expiry cfg _ _ ?_
      rw [ensure_awaiting]
      exact hsort

/-- Witness for the amended C3 at a concrete input: a state with one
live snapshot (expiry 5001), default configuration, `add_final` with
empty text at `now_ms = 1000`; the surviving snapshot's expiry exceeds
1000. -/
theorem C3_amended_witness : (1000 : ℤ) < 5001 :=
  (C3_amended_ttl_bound defaultConfig w3state "".data 1 (some 1000)
      (by simp [ExpirySorted, w3state]) (by decide)).2
    ⟨[⟨"b".data, 1, 0, 0⟩], 0, 5001, 0⟩
    (by decide)

/- Supporting lemmas for C4 and C10: Python truncation, the promotion
walk, and the pending-ordering invariant. -/

theorem pyInt_of_nonneg {q : ℚ} (h : 0 ≤ q) : pyInt q = ⌊q⌋ := by
  unfold pyInt
  rw [Int.tdiv_eq_ediv (Rat.num_nonneg.mpr h) (Int.ofNat_nonneg _),
    Rat.floor_def]

theorem pyInt_of_neg {q : ℚ} (h : q < 0) : pyInt q = ⌈q⌉ := by
  have h2 : 0 ≤ -q := by linarith
  have h3 := pyInt_of_nonneg h2
  unfold pyInt at h3 ⊢
  rw [Rat.num_neg_eq_neg_num, Rat.neg_den, Int.neg_tdiv, Int.floor_neg]
    at h3
  exact neg_injective h3

theorem pyInt_mono {q r : ℚ} (h : q ≤ r) : pyInt q ≤ pyInt r := by
  rcases le_or_lt 0 q with hq | hq
  · rw [pyInt_of_nonneg hq, pyInt_of_nonneg (le_trans hq h)]
    exact Int.floor_mono h
  · rcases le_or_lt 0 r with hr | hr
    · rw [pyInt_of_neg hq, pyInt_of_nonneg hr]
      calc ⌈q⌉ ≤ ⌈(0 : ℚ)⌉ := Int.ceil_mono (le_of_lt hq)
        _ = 0 := by simp
        _ ≤ ⌊r⌋ := Int.le_floor.mpr (by exact_mod_cast hr)
    · rw [pyInt_of_neg hq, pyInt_of_neg hr]
      exact Int.ceil_mono h

theorem collectReady_remaining_suffix (cfg : Config) (t : ℚ) :
    ∀ l : List Token, (collectReady cfg t l).remaining <:+ l := by
  intro l
  induction l with
  | nil => simp [collectReady]
  | cons tok rest ih =>
    by_cases h1 : cfg.K ≤ tok.confirmation_count
    · simp only [collectReady, h1, if_true]
      exact ih.trans (List.suffix_cons tok rest)
    · by_cases h2 : cfg.T_ms ≤ pyInt ((t - tok.first_seen_time) * 1000)
      · simp only [collectReady, h1, h2, if_true, if_false]
        exact ih.trans (List.suffix_cons tok rest)
      · simp [collectReady, h1, h2]

theorem collectReady_front_not_ready (cfg : Config) (t : ℚ) :
    ∀ (l : List Token) (tok : Token) (rest : List Token),
      (collectReady cfg t l).remaining = tok :: rest →
      tok.confirmation_count < cfg.K ∧
        pyInt ((t - tok.first_seen_time) * 1000) < cfg.T_ms := by
  intro l
  induction l with
  | nil => intro tok rest h; simp [collectReady] at h
  | cons t0 l0 ih =>
    intro tok rest h
    by_cases h1 : cfg.K ≤ t0.confirmation_count
    · simp only [collectReady, h1, if_true] at h
      exact ih tok rest h
    · by_cases h2 : cfg.T_ms ≤ pyInt ((t - t0.first_seen_time) * 1000)
      · simp only [collectReady, h1, h2, if_true, if_false] at h
        exact ih tok rest h
      · simp only [collectReady, h1, h2, if_false] at h
        obtain ⟨rfl, rfl⟩ := h
        exact ⟨Nat.lt_of_not_le h1, lt_of_not_le h2⟩

theorem remaining_fresh (cfg : Config) (t : ℚ) (l : List Token)
    (hsort : l.Pairwise PendingOrd) :
    ∀ tok ∈ (collectReady cfg t l).remaining, TokenFresh cfg t tok := by
  intro tok hmem
  rcases hrem : (collectReady cfg t l).remaining with _ | ⟨h0, rest⟩
  · rw [hrem] at hmem; simp at hmem
  · rw [hrem] at hmem
    have hsuffix := collectReady_remaining_suffix cfg t l
    rw [hrem] at hsuffix
    have hsorted' : (h0 :: rest).Pairwise PendingOrd :=
      List.Pairwise.sublist hsuffix.sublist hsort
    have hfront := collectReady_front_not_ready cfg t l h0 rest hrem
    rcases List.mem_cons.mp hmem with rfl | hmem2
    · exact ⟨hfront.1, hfront.2⟩
    · have hord := (List.pairwise_cons.mp hsorted').1 tok hmem2
      refine ⟨lt_of_le_of_lt hord.1 hfront.1, ?_⟩
      refine lt_of_le_of_lt (pyInt_mono ?_) hfront.2
      have hfs := hord.2
      nlinarith

theorem pairwise_of_forallR {α : Type} {R : α → α → Prop}
    (h : ∀ a b, R a b) : ∀ l : List α, l.Pairwise R := by
  intro l
  induction l with
  | nil => exact List.Pairwise.nil
  | cons a l ih => exact List.Pairwise.cons (fun b _ => h a b) ih

theorem alignPending_sorted (s : AccState) (cur : List Str) (tnow : ℚ)
    (hsort : s.pending_tokens.Pairwise PendingOrd)
    (hfs : ∀ tok ∈ s.pending_tokens, tok.first_seen_time ≤ tnow) :
    (alignPending s cur tnow).pending_tokens.Pairwise PendingOrd ∧
    ∀ tok ∈ (alignPending s cur tnow).pending_tokens,
      tok.first_seen_time ≤ tnow := by
  simp only [alignPending]
  set l := lcp_len (s.pending_tokens.map Token.text) cur with hl
  constructor
  · rw [List.pairwise_append]
    refine ⟨?_, ?_, ?_⟩
    · rw [List.pairwise_map]
      refine List.Pairwise.imp ?_
        (List.Pairwise.sublist (List.take_sublist l s.pending_tokens) hsort)
      intro a b hab
      exact ⟨Nat.succ_le_succ hab.1, hab.2⟩
    · rw [List.pairwise_map]
      exact pairwise_of_forallR (fun a b => ⟨le_rfl, le_rfl⟩) _
    · intro a ha b hb
      obtain ⟨a0, ha0, rfl⟩ := List.mem_map.mp ha
      obtain ⟨b0, hb0, rfl⟩ := List.mem_map.mp hb
      constructor
      · exact Nat.one_le_iff_ne_zero.mpr (Nat.succ_ne_zero _)
      · exact hfs a0 (List.mem_of_mem_take ha0)
  · intro tok htok
    rcases List.mem_append.mp htok with h2 | h2
    · obtain ⟨a0, ha0, rfl⟩ := List.mem_map.mp h2
      exact hfs a0 (List.mem_of_mem_take ha0)
    · obtain ⟨w, hw, rfl⟩ := List.mem_map.mp h2
      exact le_rfl

theorem timeout_pending_cases (cfg : Config) (s : AccState) (now : ℤ) :
    (maybeSegmentTimeout cfg s now).pending_tokens = [] ∨
    (maybeSegmentTimeout cfg s now).pending_tokens = s.pending_tokens := by
  unfold maybeSegmentTimeout
  cases s.segment_started_ms with
  | none => exact Or.inr rfl
  | some st =>
    dsimp only
    by_cases h : cfg.max_segment_ms ≤ now - st
    · rw [if_pos h]; exact Or.inl rfl
    · rw [if_neg h]; exact Or.inr rfl

theorem add_final_pending (cfg : Config) (s : AccState) (text : Str)
    (tnow : ℚ) (n : Option ℤ) :
    (add_final cfg s text tnow n).1.pending_tokens = [] := by
  simp only [add_final]
  split
  · rfl
  · rfl

theorem add_partial_fresh (cfg : Config) (s : AccState) (text : Str)
    (tnow : ℚ) (n : Option ℤ) (t : ℚ) (hinv : PendingInv t s)
    (ht : t ≤ tnow) :
    ∀ tok ∈ (add_partial_op cfg s text tnow n).1.pending_tokens,
      TokenFresh cfg tnow tok := by
  obtain ⟨hsort, hfs⟩ := hinv
  simp only [add_partial_op]
  intro tok hmem
  rcases timeout_pending_cases cfg _ (n.getD (msOfSec tnow)) with hp | hp
  · rw [hp] at hmem; simp at hmem
  · rw [hp, promote_pending] at hmem
    set s3 := recordPartialHistory cfg
      (expireSnapshots cfg
        (ensureSegmentStarted
          { s with metrics := { s.metrics with
              total_partials := s.metrics.total_partials + 1 } }
          (n.getD (msOfSec tnow)))
        (n.getD (msOfSec tnow)))
      (tokenize text) (n.getD (msOfSec tnow)) with hs3
    have hs3p : s3.pending_tokens = s.pending_tokens := by
      rw [hs3, history_pending, expire_pending, ensure_pending]
    have halign := alignPending_sorted s3 (tokenize text) tnow
      (by rw [hs3p]; exact hsort)
      (by rw [hs3p]; intro tok2 h2; exact le_trans (hfs tok2 h2) ht)
    exact remaining_fresh cfg tnow _ halign.1 tok hmem

theorem applyEvent_inv (cfg : Config) (s : AccState) (e : Event) (t : ℚ)
    (hinv : PendingInv t s) (ht : t ≤ e.tnow) :
    PendingInv e.tnow (applyEvent cfg s e) := by
  obtain ⟨hsort, hfs⟩ := hinv
  cases e with
  | brk tnow n =>
    constructor
    · rw [applyEvent, break_pending]
      exact List.Pairwise.nil
    · rw [applyEvent, break_pending]
      intro tok h; simp at h
  | fin text tnow n =>
    constructor
    · rw [applyEvent, add_final_pending]
      exact List.Pairwise.nil
    · rw [applyEvent, add_final_pending]
      intro tok h; simp at h
  | ptl text tnow n =>
    show PendingInv tnow (add_partial_op cfg s text tnow n).1
    simp only [add_partial_op]
    rcases timeout_pending_cases cfg _ (n.getD (msOfSec tnow)) with hp | hp
    · constructor
      · rw [hp]; exact List.Pairwise.nil
      · rw [hp]; intro tok h; simp at h
    · set s3 := recordPartialHistory cfg
        (expireSnapshots cfg
          (ensureSegmentStarted
            { s with metrics := { s.metrics with
                total_partials := s.metrics.total_partials + 1 } }
            (n.getD (msOfSec tnow)))
          (n.getD (msOfSec tnow)))
        (tokenize text) (n.getD (msOfSec tnow)) with hs3
      have hs3p : s3.pending_tokens = s.pending_tokens := by
        rw [hs3, history_pending, expire_pending, ensure_pending]
      have halign := alignPending_sorted s3 (tokenize text) tnow
        (by rw [hs3p]; exact hsort)
        (by rw [hs3p]; intro tok2 h2; exact le_trans (hfs tok2 h2) ht)
      have hsuffix := collectReady_remaining_suffix cfg tnow
        (alignPending s3 (tokenize text) tnow).pending_tokens
      constructor
      · rw [hp, promote_pending]
        exact List.Pairwise.sublist hsuffix.sublist halign.1
      · rw [hp, promote_pending]
        intro tok h
        exact halign.2 tok (hsuffix.sublist.subset h)

theorem run_pendingInv (cfg : Config) :
    ∀ (evs : List Event) (t : ℚ) (s : AccState),
      PendingInv t s → ClockMono t evs →
      PendingInv (clockEnd t evs) (run cfg s evs) := by
  intro evs
  induction evs with
  | nil => intro t s hinv _; exact hinv
  | cons e evs ih =>
    intro t s hinv hmono
    obtain ⟨h1, h2⟩ := hmono
    exact ih e.tnow (applyEvent cfg s e) (applyEvent_inv cfg s e t hinv h1) h2

theorem clockMono_append (evs : List Event) (e : Event) :
    ∀ t : ℚ, ClockMono t (evs ++ [e]) →
      ClockMono t evs ∧ clockEnd t evs ≤ e.tnow := by
  induction evs with
  | nil =>
    intro t h
    exact ⟨trivial, h.1⟩
  | cons f fs ih =>
    intro t h
    obtain ⟨h1, h2⟩ := h
    obtain ⟨m1, m2⟩ := ih f.tnow h2
    exact ⟨⟨h1, m1⟩, m2⟩

/-- Claim C10: in every state reachable from the initial accumulator by
partials, finals and forced breaks whose clock readings are
non-decreasing (the spec's monotone-clock assumption), the pending deque
is ordered front to back: confirmation counts non-increasing and
first-seen times non-decreasing.  Prefix-confirmation, tail-drop and
fresh-append each preserve the ordering. -/
theorem C10_pending_ordered (cfg : Config) (t0 : ℚ) (evs : List Event)
    (hmono : ClockMono t0 evs) :
    (run cfg initState evs).pending_tokens.Pairwise PendingOrd :=
  (run_pendingInv cfg evs t0 initState
    ⟨List.Pairwise.nil, by intro tok h; simp [initState] at h⟩ hmono).1

/-- Witness for C10 at a concrete run: two partials at clock readings
0 s and 0.5 s. -/
theorem C10_witness :
    (run defaultConfig initState c10events).pending_tokens.Pairwise
      PendingOrd :=
  C10_pending_ordered defaultConfig 0 c10events
    (by refine ⟨le_rfl, ?_, trivial⟩; norm_num [Event.tnow, c10events])

/-- Claim C4: after each of `add_partial`, `add_final`,
`force_segment_break` returns at its clock reading `tnow` (on any
monotone-clock run from the initial state), every token still in
`pending` meets neither promotion threshold: `confirmation_count < K`
and `int((tnow - first_seen_time) * 1000) < T_ms` — the leftmost-only
walk leaves no deeper ready token behind, because the deque is ordered
(C10).  `build_display_event` and `get_metrics` read no clock and do not
touch `pending`. -/
theorem C4_pending_freshness (cfg : Config) (t0 : ℚ) (evs : List Event)
    (e : Event) (hmono : ClockMono t0 (evs ++ [e])) :
    ∀ tok ∈ (run cfg initState (evs ++ [e])).pending_tokens,
      TokenFresh cfg e.tnow tok := by
  obtain ⟨hm1, hm2⟩ := clockMono_append evs e t0 hmono
  have hinv := run_pendingInv cfg evs t0 initState
    ⟨List.Pairwise.nil, by intro tok h; simp [initState] at h⟩ hm1
  have hrun : run cfg initState (evs ++ [e]) =
      applyEvent cfg (run cfg initState evs) e := by
    unfold run
    rw [List.foldl_append]
    rfl
  rw [hrun]
  obtain ⟨hsort, hfs⟩ := hinv
  cases e with
  | brk tnow n =>
    rw [applyEvent, break_pending]
    intro tok h; simp at h
  | fin text tnow n =>
    rw [applyEvent, add_final_pending]
    intro tok h; simp at h
  | ptl text tnow n =>
    exact add_partial_fresh cfg _ text tnow n _ ⟨hsort, hfs⟩ hm2

/-- Witness for C4 at a concrete input: one partial `hi` at clock 0; the
single pending token has count 1 < 2 and age 0 < 1400. -/
theorem C4_witness :
    TokenFresh defaultConfig 0 ⟨"hi".data, 1, 0, 0⟩ := by
  refine C4_pending_freshness defaultConfig 0 []
    (.ptl "hi".data 0 none) ⟨le_rfl, trivial⟩
    ⟨"hi".data, 1, 0, 0⟩ ?_
  with_unfolding_all decide

/- Supporting lemma for C6. -/

theorem hasFullDup_of_infix {recentL newL : List Str}
    (h : newL <:+: recentL) : hasFullDup recentL newL = true := by
  obtain ⟨pre, suf, heq⟩ := h
  unfold hasFullDup
  rw [List.any_eq_true]
  refine ⟨pre.length, ?_, ?_⟩
  · rw [List.mem_range]
    have hlen : recentL.length = pre.length + newL.length + suf.length := by
      rw [← heq]; simp; omega
    omega
  · unfold sliceEqAt
    rw [decide_eq_true_eq, ← heq, List.append_assoc, List.drop_left,
      List.take_left]

/-- Claim C6: with deduplication enabled, a non-empty candidate list and
non-empty `stable`, let `W = max(dedup_window_size, 3·|cand|)` and
`recent = stable[-W:]`.  If `|cand| ≤ |recent|` and some contiguous
slice of `recent` equals `cand` under case-folding, the deduplicator
returns the empty list, increments `dedup_full_blocks` by one and
`dedup_tokens_removed` by `|cand|`.  The deduplicator reads `stable` but
returns only the filtered list and the metrics, so `stable` itself is
untouched (visible in `dedup`'s type). -/
theorem C6_full_duplicate_block (cfg : Config) (stable : List Str)
    (m : Metrics) (cand : List Str)
    (hen : cfg.dedup_enabled = true) (hcand : cand ≠ [])
    (hstable : stable ≠ [])
    (hlen : cand.length ≤
      (lastN (max cfg.dedup_window_size (cand.length * 3)) stable).length)
    (hinf : cand.map lower <:+:
      (lastN (max cfg.dedup_window_size (cand.length * 3)) stable).map lower) :
    dedup cfg stable m cand =
      ([], { m with
              dedup_full_blocks := m.dedup_full_blocks + 1,
              dedup_tokens_removed := m.dedup_tokens_removed + cand.length }) := by
  have hguard : ¬(cfg.dedup_enabled = false ∨ cand = [] ∨ stable = []) := by
    simp [hen, hcand, hstable]
  simp only [dedup]
  rw [if_neg hguard, if_pos ?hc]
  case hc =>
    constructor
    · simpa using hlen
    · exact hasFullDup_of_infix hinf

/-- Witness for C6: stable `foo bar baz`, candidate `bar baz` — a full
duplicate, blocked with the two counters bumped. -/
theorem C6_witness :
    dedup defaultConfig ["foo".data, "bar".data, "baz".data] initMetrics
      ["bar".data, "baz".data] =
      ([], { initMetrics with
              dedup_full_blocks := 1, dedup_tokens_removed := 2 }) := by
  have h := C6_full_duplicate_block defaultConfig
    ["foo".data, "bar".data, "baz".data] initMetrics
    ["bar".data, "baz".data] (by decide) (by decide) (by decide)
    (by decide) ⟨["foo".data.map Char.toLower], [], by decide⟩
  exact h

theorem snapshotPending_awaiting_of_ne (cfg : Config) (s : AccState)
    (now : ℤ) (hp : s.pending_tokens ≠ []) :
    (snapshotPending cfg s now).awaiting_final =
      s.awaiting_final ++
        [⟨s.pending_tokens, now, now + cfg.awaiting_final_ttl_ms,
          s.segment_id⟩] := by
  simp [snapshotPending, hp]

theorem expire_started (cfg : Config) (s : AccState) (now : ℤ) :
    (expireSnapshots cfg s now).segment_started_ms =
      s.segment_started_ms := rfl

/-- Claim C8: `add_final` with text whose tokenization is empty performs
a forced segment break — pending (if non-empty) is snapshotted onto the
back of `awaiting_final` with the current segment id and `now + TTL`
expiry, then cleared; `segment_id` is incremented — and returns a
display event with `is_final = true`.  The operation is total: the model
needs no error case. -/
theorem C8_empty_final (cfg : Config) (s : AccState) (text : Str)
    (tnow : ℚ) (n : Option ℤ) (hempty : tokenize text = []) :
    (add_final cfg s text tnow n).2.is_final = true ∧
    (add_final cfg s text tnow n).1.segment_id = s.segment_id + 1 ∧
    (add_final cfg s text tnow n).1.pending_tokens = [] ∧
    (s.pending_tokens ≠ [] →
      ∃ front, (add_final cfg s text tnow n).1.awaiting_final =
        front ++ [⟨s.pending_tokens, n.getD (msOfSec tnow),
          n.getD (msOfSec tnow) + cfg.awaiting_final_ttl_ms,
          s.segment_id⟩]) := by
  have hpend : (expireSnapshots cfg
      (ensureSegmentStarted
        { s with metrics := { s.metrics with
            total_finals := s.metrics.total_finals + 1 } }
        (n.getD (msOfSec tnow)))
      (n.getD (msOfSec tnow))).pending_tokens = s.pending_tokens := by
    rw [expire_pending, ensure_pending]
  have hseg : (expireSnapshots cfg
      (ensureSegmentStarted
        { s with metrics := { s.metrics with
            total_finals := s.metrics.total_finals + 1 } }
        (n.getD (msOfSec tnow)))
      (n.getD (msOfSec tnow))).segment_id = s.segment_id := by
    rw [expire_segment_id, ensure_segment_id]
  simp only [add_final]
  rw [if_pos hempty]
  refine ⟨rfl, ?_, rfl, ?_⟩
  · rw [break_segment_id, hseg]
  · intro hne
    refine ⟨(expireSnapshots cfg
      (ensureSegmentStarted
        { s with metrics := { s.metrics with
            total_finals := s.metrics.total_finals + 1 } }
        (n.getD (msOfSec tnow)))
      (n.getD (msOfSec tnow))).awaiting_final, ?_⟩
    rw [break_awaiting, snapshotPending_awaiting_of_ne _ _ _
      (by rw [hpend]; exact hne), hpend, hseg]

/-- Witness for C8: empty final text on a state with one pending token,
at `now_ms = 100`. -/
theorem C8_witness :
    (add_final defaultConfig w8state "".data 0 (some 100)).2.is_final =
        true ∧
      (add_final defaultConfig w8state "".data 0
        (some 100)).1.segment_id = 4 := by
  have h := C8_empty_final defaultConfig w8state "".data 0 (some 100) rfl
  exact ⟨h.1, h.2.1⟩

/-- Claim C9: the accumulator is deterministic.  Every operation of the
model is a pure function of the configuration, the operation's text, the
explicit timestamp and the injected clock reading; two runs fed the same
configuration and the same event sequence (texts, explicit timestamps
and clock values) therefore produce identical display-event traces and
identical final states — in particular identical metrics and identical
stable sequences. -/
theorem C9_deterministic (cfg cfg' : Config) (evs evs' : List Event)
    (hcfg : cfg = cfg') (hevs : evs = evs') :
    runTrace cfg initState evs = runTrace cfg' initState evs' := by
  subst hcfg
  subst hevs
  rfl

/-- Witness for C9 at a concrete event sequence. -/
theorem C9_witness :
    runTrace defaultConfig initState w9events =
      runTrace defaultConfig initState w9events :=
  C9_deterministic defaultConfig defaultConfig w9events w9events rfl rfl

/- Supporting lemmas for C5: the snapshot loop of
`_build_context_for_final` keeps the first strict maximum of the
newest-first scan. -/

theorem bestStep_eq (finT st pend : List Str) (b : BestCtx)
    (p : ℕ × Snapshot) :
    bestStep finT st pend b p =
      if b.overlap < bestMval finT st pend p then bestMk finT st pend p
      else b := rfl

theorem foldl_bestStep_spec (finT st pend : List Str) :
    ∀ (cs : List (ℕ × Snapshot)) (b0 : BestCtx),
      cs.Pairwise (fun p q => q.1 < p.1) →
      (cs.foldl (bestStep finT st pend) b0 = b0 ∧
        ∀ p ∈ cs, bestMval finT st pend p ≤ b0.overlap) ∨
      (∃ p ∈ cs,
        cs.foldl (bestStep finT st pend) b0 = bestMk finT st pend p ∧
        b0.overlap < bestMval finT st pend p ∧
        (∀ q ∈ cs, bestMval finT st pend q ≤ bestMval finT st pend p) ∧
        (∀ q ∈ cs, p.1 < q.1 →
          bestMval finT st pend q < bestMval finT st pend p)) := by
  intro cs
  induction cs with
  | nil => intro b0 _; exact Or.inl ⟨rfl, by simp⟩
  | cons p0 rest ih =>
    intro b0 hdec
    obtain ⟨hd1, hd2⟩ := List.pairwise_cons.mp hdec
    rw [List.foldl_cons]
    by_cases hlt : b0.overlap < bestMval finT st pend p0
    · rw [bestStep_eq, if_pos hlt]
      have hmk : (bestMk finT st pend p0).overlap =
        bestMval finT st pend p0 := rfl
      rcases ih (bestMk finT st pend p0) hd2 with
        ⟨heq, hall⟩ | ⟨p, hp, heq, hgt, hall, hnewest⟩
      · refine Or.inr ⟨p0, List.mem_cons_self p0 rest, heq, hlt, ?_, ?_⟩
        · intro q hq
          rcases List.mem_cons.mp hq with rfl | hq2
          · exact le_rfl
          · have := hall q hq2; omega
        · intro q hq hgt2
          rcases List.mem_cons.mp hq with rfl | hq2
          · exact absurd hgt2 (lt_irrefl _)
          · exact absurd hgt2 (by have := hd1 q hq2; omega)
      · refine Or.inr ⟨p, List.mem_cons_of_mem p0 hp, heq, by omega, ?_, ?_⟩
        · intro q hq
          rcases List.mem_cons.mp hq with rfl | hq2
          · omega
          · exact hall q hq2
        · intro q hq hgt2
          rcases List.mem_cons.mp hq with rfl | hq2
          · omega
          · exact hnewest q hq2 hgt2
    · rw [bestStep_eq, if_neg hlt]
      rcases ih b0 hd2 with
        ⟨heq, hall⟩ | ⟨p, hp, heq, hgt, hall, hnewest⟩
      · refine Or.inl ⟨heq, ?_⟩
        intro q hq
        rcases List.mem_cons.mp hq with rfl | hq2
        · omega
        · exact hall q hq2
      · refine Or.inr ⟨p, List.mem_cons_of_mem p0 hp, heq, hgt, ?_, ?_⟩
        · intro q hq
          rcases List.mem_cons.mp hq with rfl | hq2
          · omega
          · exact hall q hq2
        · intro q hq hgt2
          rcases List.mem_cons.mp hq with rfl | hq2
          · omega
          · exact hnewest q hq2 hgt2

theorem mem_enum_snap {l : List Snapshot} {p : ℕ × Snapshot}
    (h : p ∈ l.enum) :
    p.1 < l.length ∧ p.2 = l.getD p.1 dummySnap := by
  obtain ⟨k, hk, hkeq⟩ := List.getElem_of_mem h
  have hk' : k < l.length := by simpa [List.enum_length] using hk
  rw [List.getElem_enum] at hkeq
  cases hkeq
  exact ⟨hk', by rw [List.getD_eq_getElem l dummySnap hk']⟩

theorem enum_mem_of_lt {l : List Snapshot} {j : ℕ} (hj : j < l.length) :
    (j, l.getD j dummySnap) ∈ l.enum := by
  have hj' : j < l.enum.length := by simpa [List.enum_length] using hj
  have hmem := List.getElem_mem hj'
  rw [List.getElem_enum] at hmem
  rw [List.getD_eq_getElem l dummySnap hj]
  exact hmem

theorem enum_reverse_pairwise (l : List Snapshot) :
    (l.enum.reverse).Pairwise fun p q => q.1 < p.1 := by
  rw [List.pairwise_reverse]
  have h1 : (l.enum.map Prod.fst).Pairwise (· < ·) := by
    rw [List.enum_map_fst]
    exact List.pairwise_lt_range l.length
  rw [List.pairwise_map] at h1
  exact h1

/-- Claim C5 counterexample: stable `x`, one snapshot `y`, no pending,
final `z`.  Every candidate (the snapshot context `[x, y]` and the
no-snapshot context `[x]`) achieves the same maximal overlap 0, so by
the claim's tie rule the snapshot candidate should be selected; the code
instead returns no snapshot and the empty context, because the loop only
replaces the initial empty candidate on a strictly positive overlap. -/
theorem C5_counterexample :
    snapCandOverlap c5state ["z".data] 0 =
        nosnapOverlap c5state ["z".data] ∧
    (build_context_for_final c5state ["z".data]).snap_idx = none ∧
    (build_context_for_final c5state ["z".data]).ctx = [] := by
  with_unfolding_all decide

/-- Claim C5 as amended: write `over(i)` for the overlap of the
candidate using snapshot `i` and `over₀` for the no-snapshot candidate's
overlap.  When the result selects snapshot `i`, that candidate achieves
the maximum overlap over all candidates, `over₀ ≤ over(i)` (snapshot
wins ties against no-snapshot), and every newer snapshot `j > i` has a
strictly smaller overlap (ties among snapshots go to the newest).  When
no snapshot is selected and the overlap is positive, the no-snapshot
candidate was chosen and strictly beats every snapshot.  When no
candidate reaches a positive overlap, the empty initial candidate is
returned unchanged (this last case is where the original claim fails:
with all overlaps 0 the tie is NOT given to a snapshot). -/
theorem C5_amended_selection (s : AccState) (finT : List Str)
    (b : BestCtx) (hb : b = build_context_for_final s finT) :
    (∀ i, b.snap_idx = some i →
      i < s.awaiting_final.length ∧
      b.ctx = snapCandCtx s i ∧
      b.overlap = snapCandOverlap s finT i ∧
      nosnapOverlap s finT ≤ b.overlap ∧
      (∀ j, j < s.awaiting_final.length →
        snapCandOverlap s finT j ≤ b.overlap) ∧
      (∀ j, j < s.awaiting_final.length → i < j →
        snapCandOverlap s finT j < b.overlap)) ∧
    (b.snap_idx = none → 0 < b.overlap →
      b.ctx = nosnapCtx s ∧
      b.overlap = nosnapOverlap s finT ∧
      (∀ j, j < s.awaiting_final.length →
        snapCandOverlap s finT j < b.overlap)) ∧
    (b.snap_idx = none → b.overlap = 0 →
      nosnapOverlap s finT = 0 ∧
      (∀ j, j < s.awaiting_final.length →
        snapCandOverlap s finT j = 0)) := by
  have hspec := foldl_bestStep_spec finT (lastN 64 s.stable)
    (s.pending_tokens.map Token.text) (s.awaiting_final.enum.reverse)
    ⟨[], none, 0, 0, 0, 0⟩ (enum_reverse_pairwise s.awaiting_final)
  have hmval : ∀ p ∈ s.awaiting_final.enum.reverse,
      bestMval finT (lastN 64 s.stable) (s.pending_tokens.map Token.text) p =
        snapCandOverlap s finT p.1 := by
    intro p hp
    obtain ⟨_, h2⟩ := mem_enum_snap (List.mem_reverse.mp hp)
    rw [bestMval, h2]
    rfl
  have hmvalj : ∀ j, bestMval finT (lastN 64 s.stable)
      (s.pending_tokens.map Token.text)
      (j, s.awaiting_final.getD j dummySnap) =
        snapCandOverlap s finT j := fun j => rfl
  have hmemj : ∀ j, j < s.awaiting_final.length →
      (j, s.awaiting_final.getD j dummySnap) ∈
        s.awaiting_final.enum.reverse := fun j hj =>
    List.mem_reverse.mpr (enum_mem_of_lt hj)
  have hb' : b = if ((s.awaiting_final.enum.reverse).foldl
      (bestStep finT (lastN 64 s.stable) (s.pending_tokens.map Token.text))
      ⟨[], none, 0, 0, 0, 0⟩).overlap < nosnapOverlap s finT then
      ⟨nosnapCtx s, none, (lastN 64 s.stable).length, 0,
        (s.pending_tokens.map Token.text).length, nosnapOverlap s finT⟩
    else (s.awaiting_final.enum.reverse).foldl
      (bestStep finT (lastN 64 s.stable) (s.pending_tokens.map Token.text))
      ⟨[], none, 0, 0, 0, 0⟩ := hb
  by_cases hm : ((s.awaiting_final.enum.reverse).foldl
      (bestStep finT (lastN 64 s.stable) (s.pending_tokens.map Token.text))
      ⟨[], none, 0, 0, 0, 0⟩).overlap < nosnapOverlap s finT
  · rw [if_pos hm] at hb'
    subst hb'
    refine ⟨?_, ?_, ?_⟩
    · intro i hi; exact absurd hi (by simp)
    · intro _ _
      refine ⟨rfl, rfl, ?_⟩
      intro j hj
      show snapCandOverlap s finT j < nosnapOverlap s finT
      rcases hspec with ⟨heq, hall⟩ | ⟨p, hp, heq, hgt, hall, hnewest⟩
      · have h1 := hall _ (hmemj j hj)
        rw [hmvalj j] at h1
        rw [heq] at hm
        dsimp only at h1 hm
        omega
      · have h1 := hall _ (hmemj j hj)
        rw [hmvalj j] at h1
        rw [heq] at hm
        have h2 : (bestMk finT (lastN 64 s.stable)
            (s.pending_tokens.map Token.text) p).overlap =
          bestMval finT (lastN 64 s.stable)
            (s.pending_tokens.map Token.text) p := rfl
        omega
    · intro _ hz
      exfalso
      dsimp only at hz
      rcases hspec with ⟨heq, hall⟩ | ⟨p, hp, heq, hgt, hall, hnewest⟩
      · rw [heq] at hm
        dsimp only at hm
        omega
      · rw [heq] at hm
        have h2 : (bestMk finT (lastN 64 s.stable)
            (s.pending_tokens.map Token.text) p).overlap =
          bestMval finT (lastN 64 s.stable)
            (s.pending_tokens.map Token.text) p := rfl
        omega
  · rw [if_neg hm] at hb'
    rcases hspec with ⟨heq, hall⟩ | ⟨p, hp, heq, hgt, hall, hnewest⟩
    · rw [heq] at hb'
      subst hb'
      refine ⟨?_, ?_, ?_⟩
      · intro i hi; exact absurd hi (by simp)
      · intro _ hpos; exact absurd hpos (by simp)
      · intro _ _
        rw [heq] at hm
        dsimp only at hm
        constructor
        · omega
        · intro j hj
          have := hall _ (hmemj j hj)
          rw [hmvalj j] at this
          simpa using this
    · rw [heq] at hb' hm
      subst hb'
      have hsnap := mem_enum_snap (List.mem_reverse.mp hp)
      have hovl : (bestMk finT (lastN 64 s.stable)
          (s.pending_tokens.map Token.text) p).overlap =
        snapCandOverlap s finT p.1 := by
        rw [show (bestMk finT (lastN 64 s.stable)
            (s.pending_tokens.map Token.text) p).overlap =
          bestMval finT (lastN 64 s.stable)
            (s.pending_tokens.map Token.text) p from rfl]
        exact hmval p hp
      refine ⟨?_, ?_, ?_⟩
      · intro i hi
        have hidx : p.1 = i := by
          simpa [bestMk] using hi
        subst hidx
        refine ⟨hsnap.1, ?_, hovl, ?_, ?_, ?_⟩
        · show lastN 64 s.stable ++ p.2.tokens.map Token.text ++
            s.pending_tokens.map Token.text = snapCandCtx s p.1
          rw [hsnap.2]
          rfl
        · rw [hovl] at hm ⊢
          omega
        · intro j hj
          have := hall _ (hmemj j hj)
          rw [hmvalj j, hmval p hp] at this
          rw [hovl]
          exact this
        · intro j hj hij
          have := hnewest _ (hmemj j hj) hij
          rw [hmvalj j, hmval p hp] at this
          rw [hovl]
          exact this
      · intro hnone; exact absurd hnone (by simp [bestMk])
      · intro hnone; exact absurd hnone (by simp [bestMk])

/-- Witness for the amended C5: stable `x`, snapshot `y`, final `y z` —
the snapshot candidate `[x, y]` achieves overlap 1 and is selected, and
the conclusions of the amended claim hold at this input. -/
theorem C5_witness :
    (build_context_for_final w5state ["y".data, "z".data]).ctx =
        snapCandCtx w5state 0 ∧
      nosnapOverlap w5state ["y".data, "z".data] ≤
        (build_context_for_final w5state ["y".data, "z".data]).overlap := by
  have h := (C5_amended_selection w5state ["y".data, "z".data]
    (build_context_for_final w5state ["y".data, "z".data]) rfl).1 0
    (by with_unfolding_all decide)
  exact ⟨h.2.1, h.2.2.2.1⟩

end TA
